import Mathlib

/-!
Verification development for the African culinary RAG pipeline
(`pipeline/recipes_loader.py`, `pipeline/chunking.py`, `pipeline/indexing.py`,
`pipeline/retrieval.py`, `pipeline/chain.py`, `pipeline/utils.py`, `app.py`).

The Python sources are shallowly embedded: strings are `List Char`, JSON
values are the inductive `JVal`, Python `None`-able metadata values are
`Option JVal`, fallible operations return `Option`/`Except` (with `none` /
`.error` modelling an uncaught Python exception).  The standard-library and
LangChain calls the code makes (`json.dumps` / `json.loads`,
`RecursiveCharacterTextSplitter.split_text`, `CrossEncoderReranker`) are
modelled from their documented behaviour, specialised exactly to the
arguments the repository passes them.
-/

/-! ## Decimal digits (Python `int` ↔ decimal string, used by `json.dumps`,
`json.loads`, f-string chunk ids and `parse_time_to_minutes`). -/

/-- The decimal digit character for `d` (defined by cases so that all facts
about it are decidable by kernel reduction). -/
def digitChar (d : Nat) : Char :=
  match d with
  | 0 => '0' | 1 => '1' | 2 => '2' | 3 => '3' | 4 => '4'
  | 5 => '5' | 6 => '6' | 7 => '7' | 8 => '8' | _ => '9'

/-- Fuel-indexed most-significant-first decimal rendering of a natural
number; the fuel only bounds the number of divisions by ten and is always
supplied as `n + 1`, which `natDigitsAux_eq` below shows is enough. -/
def natDigitsAux : Nat → Nat → List Char
  | 0, _ => []
  | fuel + 1, n =>
    if n < 10 then [digitChar n]
    else natDigitsAux fuel (n / 10) ++ [digitChar (n % 10)]

/-- Decimal rendering of a natural number, e.g. `natDigits 30 = ['3','0']`. -/
def natDigits (n : Nat) : List Char :=
  natDigitsAux (n + 1) n

/-- Numeric value of a decimal digit string (Python `int(s)` on digit-only
`s`). -/
def digitsToNat (ds : List Char) : Nat :=
  ds.foldl (fun a c => 10 * a + (c.toNat - 48)) 0

theorem digitChar_isDigit (d : Nat) : (digitChar d).isDigit = true := by
  unfold digitChar
  split <;> decide

theorem digitChar_toNat (d : Nat) (h : d < 10) : (digitChar d).toNat = 48 + d := by
  interval_cases d <;> decide

theorem natDigitsAux_eq (fuel n : Nat) (h : n < fuel) :
    natDigitsAux fuel n = natDigitsAux (n + 1) n := by
  induction fuel using Nat.strong_induction_on generalizing n with
  | _ fuel ih =>
    match fuel with
    | 0 => omega
    | fuel + 1 =>
      by_cases h10 : n < 10
      · simp [natDigitsAux, h10]
      · have hdiv : n / 10 < n := Nat.div_lt_self (by omega) (by omega)
        rw [natDigitsAux, natDigitsAux]
        simp only [h10, if_false]
        rw [ih fuel (by omega) (n / 10) (by omega),
            ih n (by omega) (n / 10) (by omega)]

theorem natDigits_eq (n : Nat) :
    natDigits n = if n < 10 then [digitChar n]
      else natDigits (n / 10) ++ [digitChar (n % 10)] := by
  by_cases h10 : n < 10
  · simp [natDigits, natDigitsAux, h10]
  · have hdiv : n / 10 < n := Nat.div_lt_self (by omega) (by omega)
    rw [natDigits, natDigits, natDigitsAux]
    simp only [h10, if_false]
    rw [natDigitsAux_eq n (n / 10) (by omega)]

theorem natDigits_ne_nil (n : Nat) : natDigits n ≠ [] := by
  rw [natDigits_eq]
  split <;> simp

theorem natDigits_all_digits (n : Nat) :
    ∀ c ∈ natDigits n, c.isDigit = true := by
  induction n using Nat.strong_induction_on with
  | _ n ih =>
    rw [natDigits_eq]
    by_cases h10 : n < 10
    · simp only [h10, if_true, List.mem_singleton]
      rintro c rfl
      exact digitChar_isDigit n
    · have hdiv : n / 10 < n := Nat.div_lt_self (by omega) (by omega)
      simp only [h10, if_false, List.mem_append, List.mem_singleton]
      rintro c (hc | rfl)
      · exact ih (n / 10) hdiv c hc
      · exact digitChar_isDigit _

theorem digitsToNat_append (ds : List Char) (c : Char) :
    digitsToNat (ds ++ [c]) = 10 * digitsToNat ds + (c.toNat - 48) := by
  simp [digitsToNat, List.foldl_append]

theorem digitsToNat_natDigits (n : Nat) : digitsToNat (natDigits n) = n := by
  induction n using Nat.strong_induction_on with
  | _ n ih =>
    rw [natDigits_eq]
    by_cases h10 : n < 10
    · simp only [h10, if_true]
      simp [digitsToNat, digitChar_toNat n h10]
    · have hdiv : n / 10 < n := Nat.div_lt_self (by omega) (by omega)
      simp only [h10, if_false]
      rw [digitsToNat_append, ih (n / 10) hdiv,
        digitChar_toNat (n % 10) (Nat.mod_lt _ (by omega))]
      omega

theorem isDigit_toNat_bounds (c : Char) (h : c.isDigit = true) :
    48 ≤ c.toNat ∧ c.toNat ≤ 57 := by
  simp only [Char.isDigit, ge_iff_le, Bool.and_eq_true, decide_eq_true_eq] at h
  rcases h with ⟨h1, h2⟩
  simp only [Char.toNat]
  exact ⟨h1, h2⟩

/-! ## JSON values and `json.dumps`

`_format_data` (recipes_loader.py) serialises ingredients/steps/nutrition
with `json.dumps(...)` using the default arguments, and the read side
(`json.loads` in chain.py, `safe_json_loads` in pipeline/utils.py) decodes
them.  `JVal` models the JSON values the corpus can carry; numbers are
modelled as arbitrary-precision integers (Python `int`; floats are outside
the model, which the round-trip contract of the spec does not cover since
it ranges over list-of-string and string-to-primitive shapes). -/

/-- A JSON value: `null`, booleans, (integer) numbers, strings, arrays and
objects.  Objects are insertion-ordered key/value lists, exactly the order
`json.dumps` writes and `json.loads` reads. -/
inductive JVal where
  | null : JVal
  | bool (b : Bool) : JVal
  | num (n : Int) : JVal
  | str (s : List Char) : JVal
  | arr (xs : List JVal) : JVal
  | obj (kvs : List (List Char × JVal)) : JVal

/-- A JSON primitive (the value shapes the spec's round-trip contract calls
"primitive"): null, boolean, number or string. -/
def JVal.isPrim : JVal → Prop
  | .null | .bool _ | .num _ | .str _ => True
  | .arr _ | .obj _ => False

instance : DecidablePred JVal.isPrim := fun v => by
  cases v <;> simp [JVal.isPrim] <;> infer_instance

/-- Hexadecimal digit character (lower case, as CPython's `json` emits in
`\u00XX` escapes). -/
def hexDigitChar (d : Nat) : Char :=
  match d with
  | 0 => '0' | 1 => '1' | 2 => '2' | 3 => '3' | 4 => '4' | 5 => '5'
  | 6 => '6' | 7 => '7' | 8 => '8' | 9 => '9' | 10 => 'a' | 11 => 'b'
  | 12 => 'c' | 13 => 'd' | 14 => 'e' | _ => 'f'

/-- Numeric value of a hexadecimal digit character, `none` on other
characters (`json.loads` accepts both cases in `\uXXXX`). -/
def hexVal (c : Char) : Option Nat :=
  if c.toNat ≥ 48 ∧ c.toNat ≤ 57 then some (c.toNat - 48)
  else if c.toNat ≥ 97 ∧ c.toNat ≤ 102 then some (c.toNat - 87)
  else if c.toNat ≥ 65 ∧ c.toNat ≤ 70 then some (c.toNat - 55)
  else none

/-- JSON string escaping of one character, as CPython's `json.dumps` emits
it: the two-character escapes for quote, backslash and the common control
characters, `\u00XX` for the remaining control characters, everything else
verbatim.  (CPython's default `ensure_ascii=True` additionally rewrites
non-ASCII characters to `\uXXXX`; that rewrite is inverted by `json.loads`
and is orthogonal to every property proved here, so the model emits
non-ASCII characters verbatim, as `ensure_ascii=False` does.) -/
def escChar (c : Char) : List Char :=
  if c = '"' then ['\\', '"']
  else if c = '\\' then ['\\', '\\']
  else if c = '\n' then ['\\', 'n']
  else if c = '\r' then ['\\', 'r']
  else if c = '\t' then ['\\', 't']
  else if c.toNat = 8 then ['\\', 'b']
  else if c.toNat = 12 then ['\\', 'f']
  else if c.toNat < 32 then
    ['\\', 'u', '0', '0', hexDigitChar (c.toNat / 16), hexDigitChar (c.toNat % 16)]
  else [c]

/-- JSON string escaping of a whole string (without the surrounding
quotes). -/
def escString (s : List Char) : List Char :=
  s.flatMap escChar

/-- Decimal rendering of a Python `int` (`repr`, as `json.dumps` emits
it). -/
def intDump (n : Int) : List Char :=
  if n < 0 then '-' :: natDigits (-n).toNat else natDigits n.toNat

mutual

/-- `json.dumps(v)` with the default arguments: item separator `", "`, key
separator `": "`, no indent. -/
def jdumpVal : JVal → List Char
  | .null => ['n', 'u', 'l', 'l']
  | .bool false => ['f', 'a', 'l', 's', 'e']
  | .bool true => ['t', 'r', 'u', 'e']
  | .num n => intDump n
  | .str s => '"' :: escString s ++ ['"']
  | .arr [] => ['[', ']']
  | .arr (x :: xs) => '[' :: (jdumpVal x ++ jdumpArrTail xs) ++ [']']
  | .obj [] => ['{', '}']
  | .obj (kv :: kvs) => '{' :: (jdumpEntry kv ++ jdumpObjTail kvs) ++ ['}']

/-- The `", item"` continuation of a dumped array. -/
def jdumpArrTail : List JVal → List Char
  | [] => []
  | x :: xs => ',' :: ' ' :: (jdumpVal x ++ jdumpArrTail xs)

/-- One `"key": value` member of a dumped object. -/
def jdumpEntry : List Char × JVal → List Char
  | (k, v) => '"' :: escString k ++ '"' :: ':' :: ' ' :: jdumpVal v

/-- The `", "key": value"` continuation of a dumped object. -/
def jdumpObjTail : List (List Char × JVal) → List Char
  | [] => []
  | kv :: kvs => ',' :: ' ' :: (jdumpEntry kv ++ jdumpObjTail kvs)

end

/-! ## `json.loads`

A recursive-descent reading of CPython's `json` decoder, specialised to the
values of the model: strict strings (raw control characters are rejected,
the standard escapes and `\uXXXX` are decoded), integer numbers, arrays,
objects, the three literals, and the `[ \t\n\r]` whitespace class.  A
`none` result models the `json.JSONDecodeError` the decoder raises.  The
`fuel` argument only bounds bracket nesting; `jsonLoads` supplies the
length of the input plus one, which `jdump_parseVal` below shows is enough
for every dumped value. -/

/-- JSON whitespace (the decoder's `[ \t\n\r]*`). -/
def jsonWs (c : Char) : Bool :=
  c = ' ' || c = '\t' || c = '\n' || c = '\r'

/-- Skip JSON whitespace. -/
def skipWs (cs : List Char) : List Char :=
  cs.dropWhile jsonWs

/-- Decode one two-character escape (the character after the backslash). -/
def unescChar (c : Char) : Option Char :=
  if c = '"' then some '"'
  else if c = '\\' then some '\\'
  else if c = '/' then some '/'
  else if c = 'b' then some (Char.ofNat 8)
  else if c = 'f' then some (Char.ofNat 12)
  else if c = 'n' then some '\n'
  else if c = 'r' then some '\r'
  else if c = 't' then some '\t'
  else none

/-- Decode the body of a JSON string literal, starting after the opening
quote, returning the decoded characters and the input after the closing
quote.  `\uXXXX` escapes are required to denote a Unicode scalar value
(CPython additionally accepts lone and paired surrogates, which a Lean
`Char` cannot carry; `json.dumps` output never contains them for scalar
input). -/
def parseStrAux : List Char → Option (List Char × List Char)
  | [] => none
  | c :: rest =>
    if c = '"' then some ([], rest)
    else if c = '\\' then
      match rest with
      | [] => none
      | e :: rest' =>
        if e = 'u' then
          match rest' with
          | h1 :: h2 :: h3 :: h4 :: rest'' =>
            match hexVal h1, hexVal h2, hexVal h3, hexVal h4 with
            | some a, some b, some c', some d =>
              let n := 4096 * a + 256 * b + 16 * c' + d
              if n < 55296 then
                (parseStrAux rest'').map (fun p => (Char.ofNat n :: p.1, p.2))
              else none
            | _, _, _, _ => none
          | _ => none
        else
          match unescChar e with
          | some ec => (parseStrAux rest').map (fun p => (ec :: p.1, p.2))
          | none => none
    else if c.toNat < 32 then none
    else (parseStrAux rest).map (fun p => (c :: p.1, p.2))

/-- Read a nonempty run of decimal digits as a number (the integer case of
the decoder's number grammar; `json.dumps` of the model's values emits no
fractions, exponents or leading zeroes). -/
def parseDigits (cs : List Char) : Option (Nat × List Char) :=
  match cs.takeWhile Char.isDigit with
  | [] => none
  | ds => some (digitsToNat ds, cs.dropWhile Char.isDigit)

mutual

/-- Parse one JSON value, returning it and the unconsumed input. -/
def parseVal : Nat → List Char → Option (JVal × List Char)
  | 0, _ => none
  | fuel + 1, cs =>
    match skipWs cs with
    | [] => none
    | c :: rest =>
      if c = '{' then
        match skipWs rest with
        | [] => none
        | c1 :: r =>
          if c1 = '}' then some (.obj [], r)
          else if c1 = '"' then
            match parseStrAux r with
            | some (k, r2) =>
              (match skipWs r2 with
               | ':' :: r3 =>
                 (match parseVal fuel r3 with
                  | some (v, r4) => parseObjRest fuel [(k, v)] r4
                  | none => none)
               | _ => none)
            | none => none
          else none
      else if c = '[' then
        match skipWs rest with
        | [] => none
        | c1 :: r =>
          if c1 = ']' then some (.arr [], r)
          else
            match parseVal fuel (c1 :: r) with
            | some (v, r') => parseArrRest fuel [v] r'
            | none => none
      else if c = '"' then
        match parseStrAux rest with
        | some (s, r) => some (.str s, r)
        | none => none
      else if c = 'n' then
        match rest with
        | 'u' :: 'l' :: 'l' :: r => some (.null, r)
        | _ => none
      else if c = 't' then
        match rest with
        | 'r' :: 'u' :: 'e' :: r => some (.bool true, r)
        | _ => none
      else if c = 'f' then
        match rest with
        | 'a' :: 'l' :: 's' :: 'e' :: r => some (.bool false, r)
        | _ => none
      else if c = '-' then
        match parseDigits rest with
        | some (n, r) => some (.num (-(n : Int)), r)
        | none => none
      else if c.isDigit then
        match parseDigits (c :: rest) with
        | some (n, r) => some (.num (n : Int), r)
        | none => none
      else none

/-- Parse the `", value"*"]"` continuation of an array whose earlier
elements are `acc`. -/
def parseArrRest : Nat → List JVal → List Char → Option (JVal × List Char)
  | 0, _, _ => none
  | fuel + 1, acc, cs =>
    match skipWs cs with
    | [] => none
    | c :: r =>
      if c = ',' then
        match parseVal fuel r with
        | some (v, r') => parseArrRest fuel (acc ++ [v]) r'
        | none => none
      else if c = ']' then some (.arr acc, r)
      else none

/-- Parse the `", "key": value"*"}"` continuation of an object whose
earlier members are `acc`. -/
def parseObjRest : Nat → List (List Char × JVal) → List Char → Option (JVal × List Char)
  | 0, _, _ => none
  | fuel + 1, acc, cs =>
    match skipWs cs with
    | [] => none
    | c :: r =>
      if c = ',' then
        match skipWs r with
        | [] => none
        | c1 :: r1 =>
          if c1 = '"' then
            match parseStrAux r1 with
            | some (k, r2) =>
              (match skipWs r2 with
               | ':' :: r3 =>
                 (match parseVal fuel r3 with
                  | some (v, r4) => parseObjRest fuel (acc ++ [(k, v)]) r4
                  | none => none)
               | _ => none)
            | none => none
          else none
      else if c = '}' then some (.obj acc, r)
      else none

end

/-- `json.loads(s)`: parse one value and require only whitespace after it;
`none` models a raised `JSONDecodeError`. -/
def jsonLoads (s : List Char) : Option JVal :=
  match parseVal (s.length + 1) s with
  | some (v, rest) => if skipWs rest = [] then some v else none
  | none => none

/-! ## The dump/parse round trip -/

theorem skipWs_cons (c : Char) (l : List Char) (h : jsonWs c = false) :
    skipWs (c :: l) = c :: l := by
  simp [skipWs, List.dropWhile_cons, h]

theorem skipWs_space (l : List Char) : skipWs (' ' :: l) = skipWs l := rfl

theorem hexVal_hexDigitChar (d : Nat) (h : d < 16) :
    hexVal (hexDigitChar d) = some d := by
  interval_cases d <;> decide

theorem parseStrAux_quote (rest : List Char) :
    parseStrAux ('"' :: rest) = some ([], rest) := by
  rw [parseStrAux.eq_def]
  simp

theorem parseStrAux_twoChar (e ec : Char) (t : List Char)
    (hu : e ≠ 'u') (hun : unescChar e = some ec) :
    parseStrAux ('\\' :: e :: t) = (parseStrAux t).map (fun p => (ec :: p.1, p.2)) := by
  rw [parseStrAux.eq_def]
  simp [hu, hun]

theorem parseStrAux_hex (a b : Nat) (ha : a < 16) (hb : b < 16) (t : List Char) :
    parseStrAux ('\\' :: 'u' :: '0' :: '0' :: hexDigitChar a :: hexDigitChar b :: t) =
      (parseStrAux t).map (fun p => (Char.ofNat (16 * a + b) :: p.1, p.2)) := by
  have h0 : hexVal '0' = some 0 := by decide
  rw [parseStrAux.eq_def]
  simp only [hexVal_hexDigitChar a ha, hexVal_hexDigitChar b hb, h0, reduceIte]
  rw [if_pos (show 4096 * 0 + 256 * 0 + 16 * a + b < 55296 by omega)]
  norm_num
  intro h
  exact absurd h (by decide)

theorem parseStrAux_plain (c : Char) (t : List Char)
    (h1 : ¬ c = '"') (h2 : ¬ c = '\\') (h8 : ¬ c.toNat < 32) :
    parseStrAux (c :: t) = (parseStrAux t).map (fun p => (c :: p.1, p.2)) := by
  rw [parseStrAux.eq_def]
  simp [h1, h2, h8]

theorem parseStrAux_esc (s rest : List Char) :
    parseStrAux (escString s ++ '"' :: rest) = some (s, rest) := by
  induction s with
  | nil =>
    simp only [escString, List.flatMap_nil, List.nil_append]
    exact parseStrAux_quote rest
  | cons c s ih =>
    have hesc : escString (c :: s) = escChar c ++ escString s := by
      simp [escString]
    rw [hesc, List.append_assoc]
    by_cases h1 : c = '"'
    · subst h1
      rw [show escChar '"' = ['\\', '"'] from by decide]
      simp only [List.cons_append, List.nil_append]
      rw [parseStrAux_twoChar '"' '"' _ (by decide) (by decide), ih]
      rfl
    · by_cases h2 : c = '\\'
      · subst h2
        rw [show escChar '\\' = ['\\', '\\'] from by decide]
        simp only [List.cons_append, List.nil_append]
        rw [parseStrAux_twoChar '\\' '\\' _ (by decide) (by decide), ih]
        rfl
      · by_cases h3 : c = '\n'
        · subst h3
          rw [show escChar '\n' = ['\\', 'n'] from by decide]
          simp only [List.cons_append, List.nil_append]
          rw [parseStrAux_twoChar 'n' '\n' _ (by decide) (by decide), ih]
          rfl
        · by_cases h4 : c = '\r'
          · subst h4
            rw [show escChar '\r' = ['\\', 'r'] from by decide]
            simp only [List.cons_append, List.nil_append]
            rw [parseStrAux_twoChar 'r' '\r' _ (by decide) (by decide), ih]
            rfl
          · by_cases h5 : c = '\t'
            · subst h5
              rw [show escChar '\t' = ['\\', 't'] from by decide]
              simp only [List.cons_append, List.nil_append]
              rw [parseStrAux_twoChar 't' '\t' _ (by decide) (by decide), ih]
              rfl
            · by_cases h6 : c.toNat = 8
              · have hc : Char.ofNat 8 = c := by
                  rw [← h6, Char.ofNat_toNat]
                have he : escChar c = ['\\', 'b'] := by
                  unfold escChar
                  rw [if_neg h1, if_neg h2, if_neg h3, if_neg h4, if_neg h5, if_pos h6]
                rw [he]
                simp only [List.cons_append, List.nil_append]
                rw [parseStrAux_twoChar 'b' (Char.ofNat 8) _ (by decide) (by decide), ih, hc]
                rfl
              · by_cases h7 : c.toNat = 12
                · have hc : Char.ofNat 12 = c := by
                    rw [← h7, Char.ofNat_toNat]
                  have he : escChar c = ['\\', 'f'] := by
                    unfold escChar
                    rw [if_neg h1, if_neg h2, if_neg h3, if_neg h4, if_neg h5,
                      if_neg h6, if_pos h7]
                  rw [he]
                  simp only [List.cons_append, List.nil_append]
                  rw [parseStrAux_twoChar 'f' (Char.ofNat 12) _ (by decide) (by decide), ih, hc]
                  rfl
                · by_cases h8 : c.toNat < 32
                  · have he : escChar c = ['\\', 'u', '0', '0',
                        hexDigitChar (c.toNat / 16), hexDigitChar (c.toNat % 16)] := by
                      unfold escChar
                      rw [if_neg h1, if_neg h2, if_neg h3, if_neg h4, if_neg h5,
                        if_neg h6, if_neg h7, if_pos h8]
                    rw [he]
                    simp only [List.cons_append, List.nil_append]
                    have hdiv : c.toNat / 16 < 16 := by omega
                    have hmod : c.toNat % 16 < 16 := Nat.mod_lt _ (by omega)
                    rw [parseStrAux_hex _ _ hdiv hmod, ih]
                    have hn : 16 * (c.toNat / 16) + c.toNat % 16 = c.toNat := by omega
                    rw [hn, Char.ofNat_toNat]
                    rfl
                  · have he : escChar c = [c] := by
                      unfold escChar
                      rw [if_neg h1, if_neg h2, if_neg h3, if_neg h4, if_neg h5,
                        if_neg h6, if_neg h7, if_neg h8]
                    rw [he]
                    simp only [List.cons_append, List.nil_append]
                    rw [parseStrAux_plain c _ h1 h2 h8, ih]
                    rfl

/-- The head of the unconsumed input is not a decimal digit (so a number
literal before it ends where its own digits end). -/
def headNotDigit : List Char → Prop
  | [] => True
  | c :: _ => c.isDigit = false

theorem isDigit_ne (c x : Char) (h : c.isDigit = true) (hx : x.isDigit = false) :
    c ≠ x := by
  intro he
  rw [he, hx] at h
  cases h

theorem jsonWs_eq_false (c : Char) (h1 : c ≠ ' ') (h2 : c ≠ '\t')
    (h3 : c ≠ '\n') (h4 : c ≠ '\r') : jsonWs c = false := by
  simp [jsonWs, h1, h2, h3, h4]

theorem jsonWs_of_digit (c : Char) (h : c.isDigit = true) : jsonWs c = false :=
  jsonWs_eq_false c (isDigit_ne c ' ' h (by decide)) (isDigit_ne c '\t' h (by decide))
    (isDigit_ne c '\n' h (by decide)) (isDigit_ne c '\r' h (by decide))

theorem takeWhile_append_all (p : Char → Bool) (l r : List Char)
    (h : ∀ c ∈ l, p c = true) :
    (l ++ r).takeWhile p = l ++ r.takeWhile p := by
  induction l with
  | nil => simp
  | cons c l ih =>
    have hc : p c = true := h c (by simp)
    have hl : ∀ c' ∈ l, p c' = true := fun c' hc' => h c' (by simp [hc'])
    simp [List.takeWhile_cons, hc, ih hl]

theorem dropWhile_append_all (p : Char → Bool) (l r : List Char)
    (h : ∀ c ∈ l, p c = true) :
    (l ++ r).dropWhile p = r.dropWhile p := by
  induction l with
  | nil => simp
  | cons c l ih =>
    have hc : p c = true := h c (by simp)
    have hl : ∀ c' ∈ l, p c' = true := fun c' hc' => h c' (by simp [hc'])
    simp [List.dropWhile_cons, hc, ih hl]

theorem takeWhile_isDigit_of_headNotDigit (r : List Char) (h : headNotDigit r) :
    r.takeWhile Char.isDigit = [] := by
  cases r with
  | nil => rfl
  | cons c t =>
    simp only [headNotDigit] at h
    simp [List.takeWhile_cons, h]

theorem dropWhile_isDigit_of_headNotDigit (r : List Char) (h : headNotDigit r) :
    r.dropWhile Char.isDigit = r := by
  cases r with
  | nil => rfl
  | cons c t =>
    simp only [headNotDigit] at h
    simp [List.dropWhile_cons, h]

theorem parseDigits_natDigits (n : Nat) (rest : List Char) (h : headNotDigit rest) :
    parseDigits (natDigits n ++ rest) = some (n, rest) := by
  have htake : (natDigits n ++ rest).takeWhile Char.isDigit = natDigits n := by
    rw [takeWhile_append_all Char.isDigit _ _ (natDigits_all_digits n),
      takeWhile_isDigit_of_headNotDigit rest h, List.append_nil]
  have hdrop : (natDigits n ++ rest).dropWhile Char.isDigit = rest := by
    rw [dropWhile_append_all Char.isDigit _ _ (natDigits_all_digits n),
      dropWhile_isDigit_of_headNotDigit rest h]
  obtain ⟨d, ds, hds⟩ := List.exists_cons_of_ne_nil (natDigits_ne_nil n)
  rw [parseDigits, htake, hdrop, hds]
  show some (digitsToNat (d :: ds), rest) = some (n, rest)
  rw [← hds, digitsToNat_natDigits]

theorem jdump_ne_nil (v : JVal) : jdumpVal v ≠ [] := by
  cases v with
  | null => simp [jdumpVal]
  | bool b => cases b <;> simp [jdumpVal]
  | num n =>
    simp only [jdumpVal, intDump]
    split
    · simp
    · exact natDigits_ne_nil _
  | str s => simp [jdumpVal]
  | arr xs => cases xs <;> simp [jdumpVal]
  | obj kvs => cases kvs <;> simp [jdumpVal]

theorem jdump_head (v : JVal) :
    ∃ c t, jdumpVal v = c :: t ∧ jsonWs c = false ∧ c ≠ ']' := by
  cases v with
  | null => exact ⟨'n', ['u', 'l', 'l'], rfl, by decide, by decide⟩
  | bool b =>
    cases b
    · exact ⟨'f', ['a', 'l', 's', 'e'], rfl, by decide, by decide⟩
    · exact ⟨'t', ['r', 'u', 'e'], rfl, by decide, by decide⟩
  | num n =>
    by_cases hn : n < 0
    · refine ⟨'-', natDigits (-n).toNat, ?_, by decide, by decide⟩
      simp [jdumpVal, intDump, hn]
    · obtain ⟨d, ds, hds⟩ := List.exists_cons_of_ne_nil (natDigits_ne_nil n.toNat)
      have hd : d.isDigit = true := natDigits_all_digits n.toNat d (by rw [hds]; simp)
      refine ⟨d, ds, ?_, jsonWs_of_digit d hd, isDigit_ne d ']' hd (by decide)⟩
      simp [jdumpVal, intDump, hn, hds]
  | str s => exact ⟨'"', escString s ++ ['"'], rfl, by decide, by decide⟩
  | arr xs =>
    cases xs
    · exact ⟨'[', [']'], rfl, by decide, by decide⟩
    · exact ⟨'[', _, rfl, by decide, by decide⟩
  | obj kvs =>
    cases kvs
    · exact ⟨'{', ['}'], rfl, by decide, by decide⟩
    · exact ⟨'{', _, rfl, by decide, by decide⟩

theorem parseVal_space (fuel : Nat) (cs : List Char) :
    parseVal fuel (' ' :: cs) = parseVal fuel cs := by
  cases fuel with
  | zero => rfl
  | succ fuel =>
    show (match skipWs (' ' :: cs) with
      | [] => none
      | c :: rest => _) = _
    rw [skipWs_space]
    rfl

theorem parseVal_succ_eq (fuel : Nat) (cs : List Char) :
    parseVal (fuel + 1) cs =
      (match skipWs cs with
       | [] => none
       | c :: rest =>
         if c = '{' then
           match skipWs rest with
           | [] => none
           | c1 :: r =>
             if c1 = '}' then some (.obj [], r)
             else if c1 = '"' then
               match parseStrAux r with
               | some (k, r2) =>
                 (match skipWs r2 with
                  | ':' :: r3 =>
                    (match parseVal fuel r3 with
                     | some (v, r4) => parseObjRest fuel [(k, v)] r4
                     | none => none)
                  | _ => none)
               | none => none
             else none
         else if c = '[' then
           match skipWs rest with
           | [] => none
           | c1 :: r =>
             if c1 = ']' then some (.arr [], r)
             else
               match parseVal fuel (c1 :: r) with
               | some (v, r') => parseArrRest fuel [v] r'
               | none => none
         else if c = '"' then
           match parseStrAux rest with
           | some (s, r) => some (.str s, r)
           | none => none
         else if c = 'n' then
           match rest with
           | 'u' :: 'l' :: 'l' :: r => some (.null, r)
           | _ => none
         else if c = 't' then
           match rest with
           | 'r' :: 'u' :: 'e' :: r => some (.bool true, r)
           | _ => none
         else if c = 'f' then
           match rest with
           | 'a' :: 'l' :: 's' :: 'e' :: r => some (.bool false, r)
           | _ => none
         else if c = '-' then
           match parseDigits rest with
           | some (n, r) => some (.num (-(n : Int)), r)
           | none => none
         else if c.isDigit then
           match parseDigits (c :: rest) with
           | some (n, r) => some (.num (n : Int), r)
           | none => none
         else none) := by
  rw [parseVal.eq_def]

theorem parseArrRest_succ_eq (fuel : Nat) (acc : List JVal) (cs : List Char) :
    parseArrRest (fuel + 1) acc cs =
      (match skipWs cs with
       | [] => none
       | c :: r =>
         if c = ',' then
           match parseVal fuel r with
           | some (v, r') => parseArrRest fuel (acc ++ [v]) r'
           | none => none
         else if c = ']' then some (.arr acc, r)
         else none) := by
  rw [parseArrRest.eq_def]

theorem parseObjRest_succ_eq (fuel : Nat) (acc : List (List Char × JVal)) (cs : List Char) :
    parseObjRest (fuel + 1) acc cs =
      (match skipWs cs with
       | [] => none
       | c :: r =>
         if c = ',' then
           match skipWs r with
           | [] => none
           | c1 :: r1 =>
             if c1 = '"' then
               match parseStrAux r1 with
               | some (k, r2) =>
                 (match skipWs r2 with
                  | ':' :: r3 =>
                    (match parseVal fuel r3 with
                     | some (v, r4) => parseObjRest fuel (acc ++ [(k, v)]) r4
                     | none => none)
                  | _ => none)
               | none => none
             else none
         else if c = '}' then some (.obj acc, r)
         else none) := by
  rw [parseObjRest.eq_def]

theorem parseVal_null (fuel : Nat) (rest : List Char) :
    parseVal (fuel + 1) ('n' :: 'u' :: 'l' :: 'l' :: rest) = some (.null, rest) := by
  rw [parseVal_succ_eq, skipWs_cons _ _ (by decide)]
  simp

theorem parseVal_true (fuel : Nat) (rest : List Char) :
    parseVal (fuel + 1) ('t' :: 'r' :: 'u' :: 'e' :: rest) = some (.bool true, rest) := by
  rw [parseVal_succ_eq, skipWs_cons _ _ (by decide)]
  simp

theorem parseVal_false (fuel : Nat) (rest : List Char) :
    parseVal (fuel + 1) ('f' :: 'a' :: 'l' :: 's' :: 'e' :: rest) = some (.bool false, rest) := by
  rw [parseVal_succ_eq, skipWs_cons _ _ (by decide)]
  simp

theorem parseVal_str (fuel : Nat) (rest : List Char) :
    parseVal (fuel + 1) ('"' :: rest) =
      (match parseStrAux rest with
       | some (s, r) => some (.str s, r)
       | none => none) := by
  rw [parseVal_succ_eq, skipWs_cons _ _ (by decide)]
  simp

theorem parseVal_neg (fuel : Nat) (rest : List Char) :
    parseVal (fuel + 1) ('-' :: rest) =
      (match parseDigits rest with
       | some (n, r) => some (.num (-(n : Int)), r)
       | none => none) := by
  rw [parseVal_succ_eq, skipWs_cons _ _ (by decide)]
  simp

theorem parseVal_digit (fuel : Nat) (c : Char) (rest : List Char) (h : c.isDigit = true) :
    parseVal (fuel + 1) (c :: rest) =
      (match parseDigits (c :: rest) with
       | some (n, r) => some (.num (n : Int), r)
       | none => none) := by
  rw [parseVal_succ_eq, skipWs_cons _ _ (jsonWs_of_digit c h)]
  simp only [if_neg (isDigit_ne c '{' h (by decide)), if_neg (isDigit_ne c '[' h (by decide)),
    if_neg (isDigit_ne c '"' h (by decide)), if_neg (isDigit_ne c 'n' h (by decide)),
    if_neg (isDigit_ne c 't' h (by decide)), if_neg (isDigit_ne c 'f' h (by decide)),
    if_neg (isDigit_ne c '-' h (by decide)), if_pos h]

theorem parseVal_arr (fuel : Nat) (rest : List Char) :
    parseVal (fuel + 1) ('[' :: rest) =
      (match skipWs rest with
       | [] => none
       | c1 :: r =>
         if c1 = ']' then some (.arr [], r)
         else
           match parseVal fuel (c1 :: r) with
           | some (v, r') => parseArrRest fuel [v] r'
           | none => none) := by
  rw [parseVal_succ_eq, skipWs_cons _ _ (by decide)]
  simp

theorem parseVal_obj (fuel : Nat) (rest : List Char) :
    parseVal (fuel + 1) ('{' :: rest) =
      (match skipWs rest with
       | [] => none
       | c1 :: r =>
         if c1 = '}' then some (.obj [], r)
         else if c1 = '"' then
           match parseStrAux r with
           | some (k, r2) =>
             (match skipWs r2 with
              | ':' :: r3 =>
                (match parseVal fuel r3 with
                 | some (v, r4) => parseObjRest fuel [(k, v)] r4
                 | none => none)
              | _ => none)
           | none => none
         else none) := by
  rw [parseVal_succ_eq, skipWs_cons _ _ (by decide)]
  simp

theorem parseArrRest_close (fuel : Nat) (acc : List JVal) (rest : List Char) :
    parseArrRest (fuel + 1) acc (']' :: rest) = some (.arr acc, rest) := by
  rw [parseArrRest_succ_eq, skipWs_cons _ _ (by decide)]
  simp

theorem parseArrRest_comma (fuel : Nat) (acc : List JVal) (rest : List Char) :
    parseArrRest (fuel + 1) acc (',' :: rest) =
      (match parseVal fuel rest with
       | some (v, r') => parseArrRest fuel (acc ++ [v]) r'
       | none => none) := by
  rw [parseArrRest_succ_eq, skipWs_cons _ _ (by decide)]
  simp

theorem parseObjRest_close (fuel : Nat) (acc : List (List Char × JVal)) (rest : List Char) :
    parseObjRest (fuel + 1) acc ('}' :: rest) = some (.obj acc, rest) := by
  rw [parseObjRest_succ_eq, skipWs_cons _ _ (by decide)]
  simp

theorem parseObjRest_comma (fuel : Nat) (acc : List (List Char × JVal)) (rest : List Char) :
    parseObjRest (fuel + 1) acc (',' :: rest) =
      (match skipWs rest with
       | [] => none
       | c1 :: r1 =>
         if c1 = '"' then
           match parseStrAux r1 with
           | some (k, r2) =>
             (match skipWs r2 with
              | ':' :: r3 =>
                (match parseVal fuel r3 with
                 | some (v, r4) => parseObjRest fuel (acc ++ [(k, v)]) r4
                 | none => none)
              | _ => none)
           | none => none
         else none) := by
  rw [parseObjRest_succ_eq, skipWs_cons _ _ (by decide)]
  simp

theorem headNotDigit_arrTail (xs : List JVal) (rest : List Char) :
    headNotDigit (jdumpArrTail xs ++ ']' :: rest) := by
  cases xs with
  | nil => exact (by decide : (']').isDigit = false)
  | cons x xs => exact (by decide : (',').isDigit = false)

theorem headNotDigit_objTail (kvs : List (List Char × JVal)) (rest : List Char) :
    headNotDigit (jdumpObjTail kvs ++ '}' :: rest) := by
  cases kvs with
  | nil => exact (by decide : ('}').isDigit = false)
  | cons kv kvs => exact (by decide : (',').isDigit = false)

theorem parse_roundtrip (fuel : Nat) :
    (∀ v rest, (jdumpVal v).length ≤ fuel → headNotDigit rest →
      parseVal fuel (jdumpVal v ++ rest) = some (v, rest)) ∧
    (∀ xs acc rest, (jdumpArrTail xs).length < fuel →
      parseArrRest fuel acc (jdumpArrTail xs ++ ']' :: rest) = some (.arr (acc ++ xs), rest)) ∧
    (∀ kvs acc rest, (jdumpObjTail kvs).length < fuel →
      parseObjRest fuel acc (jdumpObjTail kvs ++ '}' :: rest) = some (.obj (acc ++ kvs), rest)) := by
  induction fuel with
  | zero =>
    refine ⟨?_, ?_, ?_⟩
    · intro v rest hlen _
      exact absurd (List.length_eq_zero.mp (Nat.le_zero.mp hlen)) (jdump_ne_nil v)
    · intro xs acc rest h
      omega
    · intro kvs acc rest h
      omega
  | succ fuel ih =>
    obtain ⟨rt, rta, rto⟩ := ih
    refine ⟨?_, ?_, ?_⟩
    · intro v rest hlen hrest
      cases v with
      | null => exact parseVal_null fuel rest
      | bool b =>
        cases b
        · exact parseVal_false fuel rest
        · exact parseVal_true fuel rest
      | num n =>
        by_cases hn : n < 0
        · have hd : jdumpVal (.num n) = '-' :: natDigits (-n).toNat := by
            simp [jdumpVal, intDump, hn]
          rw [hd, List.cons_append, parseVal_neg, parseDigits_natDigits _ _ hrest]
          have hcast : (((-n).toNat : Int)) = -n := Int.toNat_of_nonneg (by omega)
          simp only [hcast, neg_neg]
        · have hd : jdumpVal (.num n) = natDigits n.toNat := by
            simp [jdumpVal, intDump, hn]
          obtain ⟨d, ds, hds⟩ := List.exists_cons_of_ne_nil (natDigits_ne_nil n.toNat)
          have hdig : d.isDigit = true := natDigits_all_digits _ d (by rw [hds]; simp)
          rw [hd, hds, List.cons_append, parseVal_digit fuel d _ hdig,
            ← List.cons_append, ← hds, parseDigits_natDigits _ _ hrest]
          have hcast : ((n.toNat : Int)) = n := Int.toNat_of_nonneg (by omega)
          simp only [hcast]
      | str s =>
        have hd : jdumpVal (.str s) = '"' :: (escString s ++ ['"']) := rfl
        rw [hd, List.cons_append, List.append_assoc, List.singleton_append,
          parseVal_str, parseStrAux_esc]
      | arr xs =>
        cases xs with
        | nil =>
          have hd : jdumpVal (.arr []) = ['[', ']'] := rfl
          rw [hd, show (['[', ']'] : List Char) ++ rest = '[' :: ']' :: rest from rfl,
            parseVal_arr, skipWs_cons _ _ (by decide)]
          simp
        | cons x xs =>
          obtain ⟨c, t, hct, hws, hne⟩ := jdump_head x
          have hlx : 1 ≤ (jdumpVal x).length := by
            rw [hct]
            simp
          have hd : jdumpVal (.arr (x :: xs)) =
              '[' :: (jdumpVal x ++ jdumpArrTail xs) ++ [']'] := rfl
          rw [hd] at hlen ⊢
          have hlen1 : (jdumpVal x).length ≤ fuel := by
            simp [List.length_append] at hlen
            omega
          have hlen2 : (jdumpArrTail xs).length < fuel := by
            simp [List.length_append] at hlen
            omega
          simp only [List.cons_append, List.append_assoc, List.singleton_append, List.nil_append]
          rw [parseVal_arr, hct, List.cons_append, skipWs_cons _ _ hws]
          try dsimp only []
          rw [if_neg hne, ← List.cons_append, ← hct]
          rw [rt x (jdumpArrTail xs ++ ']' :: rest) hlen1 (headNotDigit_arrTail xs rest)]
          show parseArrRest fuel [x] (jdumpArrTail xs ++ ']' :: rest) = _
          rw [rta xs [x] rest hlen2]
          simp
      | obj kvs =>
        cases kvs with
        | nil =>
          have hd : jdumpVal (.obj []) = ['{', '}'] := rfl
          rw [hd, show (['{', '}'] : List Char) ++ rest = '{' :: '}' :: rest from rfl,
            parseVal_obj, skipWs_cons _ _ (by decide)]
          simp
        | cons kv kvs =>
          obtain ⟨k, v⟩ := kv
          obtain ⟨c, t, hct, hws, hne⟩ := jdump_head v
          have hlx : 1 ≤ (jdumpVal v).length := by
            rw [hct]
            simp
          have hd : jdumpVal (.obj ((k, v) :: kvs)) =
              '{' :: (('"' :: escString k ++ '"' :: ':' :: ' ' :: jdumpVal v)
                ++ jdumpObjTail kvs) ++ ['}'] := rfl
          rw [hd] at hlen ⊢
          have hlen1 : (jdumpVal v).length ≤ fuel := by
            simp [List.length_append] at hlen
            omega
          have hlen2 : (jdumpObjTail kvs).length < fuel := by
            simp [List.length_append] at hlen
            omega
          simp only [List.cons_append, List.append_assoc, List.singleton_append, List.nil_append]
          rw [parseVal_obj, skipWs_cons _ _ (by decide)]
          try dsimp only []
          rw [if_neg (by decide : ¬ (('"' : Char) = '}')), if_pos rfl, parseStrAux_esc]
          try dsimp only []
          rw [skipWs_cons _ _ (by decide)]
          show (match parseVal fuel (' ' :: (jdumpVal v ++ (jdumpObjTail kvs ++ '}' :: rest))) with
            | some (v', r4) => parseObjRest fuel [(k, v')] r4
            | none => none) = _
          rw [parseVal_space, rt v (jdumpObjTail kvs ++ '}' :: rest)
            hlen1 (headNotDigit_objTail kvs rest)]
          show parseObjRest fuel [(k, v)] (jdumpObjTail kvs ++ '}' :: rest) = _
          rw [rto kvs [(k, v)] rest hlen2]
          simp
    · intro xs acc rest hlen
      cases xs with
      | nil =>
        rw [show jdumpArrTail ([] : List JVal) ++ ']' :: rest = ']' :: rest from rfl,
          parseArrRest_close]
        simp
      | cons x xs =>
        obtain ⟨c, t, hct, hws, hne⟩ := jdump_head x
        have hlx : 1 ≤ (jdumpVal x).length := by
          rw [hct]
          simp
        have hd : jdumpArrTail (x :: xs) = ',' :: ' ' :: (jdumpVal x ++ jdumpArrTail xs) := rfl
        rw [hd] at hlen ⊢
        have hlen1 : (jdumpVal x).length ≤ fuel := by
          simp [List.length_append] at hlen
          omega
        have hlen2 : (jdumpArrTail xs).length < fuel := by
          simp [List.length_append] at hlen
          omega
        rw [List.cons_append, List.cons_append, parseArrRest_comma, parseVal_space,
          List.append_assoc, rt x (jdumpArrTail xs ++ ']' :: rest) hlen1
            (headNotDigit_arrTail xs rest)]
        show parseArrRest fuel (acc ++ [x]) (jdumpArrTail xs ++ ']' :: rest) = _
        rw [rta xs (acc ++ [x]) rest hlen2]
        simp
    · intro kvs acc rest hlen
      cases kvs with
      | nil =>
        rw [show jdumpObjTail ([] : List (List Char × JVal)) ++ '}' :: rest = '}' :: rest from rfl,
          parseObjRest_close]
        simp
      | cons kv kvs =>
        obtain ⟨k, v⟩ := kv
        obtain ⟨c, t, hct, hws, hne⟩ := jdump_head v
        have hlx : 1 ≤ (jdumpVal v).length := by
          rw [hct]
          simp
        have hd : jdumpObjTail ((k, v) :: kvs) =
            ',' :: ' ' :: (('"' :: escString k ++ '"' :: ':' :: ' ' :: jdumpVal v)
              ++ jdumpObjTail kvs) := rfl
        rw [hd] at hlen ⊢
        have hlen1 : (jdumpVal v).length ≤ fuel := by
          simp [List.length_append] at hlen
          omega
        have hlen2 : (jdumpObjTail kvs).length < fuel := by
          simp [List.length_append] at hlen
          omega
        simp only [List.cons_append, List.append_assoc, List.singleton_append, List.nil_append]
        rw [parseObjRest_comma, skipWs_space, skipWs_cons _ _ (by decide)]
        try dsimp only []
        rw [if_pos rfl, parseStrAux_esc]
        try dsimp only []
        rw [skipWs_cons _ _ (by decide)]
        show (match parseVal fuel (' ' :: (jdumpVal v ++ (jdumpObjTail kvs ++ '}' :: rest))) with
          | some (v', r4) => parseObjRest fuel (acc ++ [(k, v')]) r4
          | none => none) = _
        rw [parseVal_space, rt v (jdumpObjTail kvs ++ '}' :: rest) hlen1
          (headNotDigit_objTail kvs rest)]
        show parseObjRest fuel (acc ++ [(k, v)]) (jdumpObjTail kvs ++ '}' :: rest) = _
        rw [rto kvs (acc ++ [(k, v)]) rest hlen2]
        simp

/-- `json.loads(json.dumps(v)) == v` for every value of the model. -/
theorem jdump_jsonLoads (v : JVal) : jsonLoads (jdumpVal v) = some v := by
  have h := (parse_roundtrip ((jdumpVal v).length + 1)).1 v [] (by omega) trivial
  rw [List.append_nil] at h
  unfold jsonLoads
  rw [h]
  rfl

/-- C1: for every list of strings x (ingredients, steps) and every mapping of
string to primitive x (nutrition), deserializing the serialized metadata value
yields the original: `deserialize(serialize(x)) == x`, where serialize is the
loader's JSON string-encoding of the field into Document metadata
(`json.dumps` in `_format_data`, recipes_loader.py) and deserialize is the
read-side JSON decoding used by answer composition (`json.loads` in
`_format_recipe_metadata`, chain.py). -/
theorem c1_serialize_deserialize_roundtrip :
    (∀ xs : List (List Char),
      jsonLoads (jdumpVal (JVal.arr (xs.map JVal.str))) =
        some (JVal.arr (xs.map JVal.str))) ∧
    (∀ kvs : List (List Char × JVal), (∀ p ∈ kvs, p.2.isPrim) →
      jsonLoads (jdumpVal (JVal.obj kvs)) = some (JVal.obj kvs)) :=
  ⟨fun _ => jdump_jsonLoads _, fun _ _ => jdump_jsonLoads _⟩

/-- Witness for C1 at a concrete ingredient list and nutrition mapping. -/
theorem c1_serialize_deserialize_roundtrip_witness :
    jsonLoads (jdumpVal (JVal.arr [JVal.str ['r', 'i', 'c', 'e'],
        JVal.str ['t', 'o', 'm', 'a', 't', 'o']])) =
      some (JVal.arr [JVal.str ['r', 'i', 'c', 'e'],
        JVal.str ['t', 'o', 'm', 'a', 't', 'o']]) ∧
    ((∀ p ∈ ([(['k', 'c', 'a', 'l'], JVal.num 300),
        (['f', 'a', 't'], JVal.str ['5', 'g'])] : List (List Char × JVal)),
        p.2.isPrim) ∧
      jsonLoads (jdumpVal (JVal.obj [(['k', 'c', 'a', 'l'], JVal.num 300),
        (['f', 'a', 't'], JVal.str ['5', 'g'])])) =
      some (JVal.obj [(['k', 'c', 'a', 'l'], JVal.num 300),
        (['f', 'a', 't'], JVal.str ['5', 'g'])])) :=
  ⟨c1_serialize_deserialize_roundtrip.1 [['r', 'i', 'c', 'e'], ['t', 'o', 'm', 'a', 't', 'o']],
    by decide,
    c1_serialize_deserialize_roundtrip.2 _ (by decide)⟩

/-! ## `pipeline/utils.py`: `safe_json_loads` and `parse_time_to_minutes`

Python values flowing through these helpers are modelled as `Option JVal`:
`none` is Python `None`, `some (.str s)` a string, and so on. -/

/-- `safe_json_loads(value, default)` (pipeline/utils.py, also duplicated in
utils/streamlit_helpes.py): if `value` is a string, try `json.loads` and on
any exception return `default` unless it is `None`, in which case return the
string unchanged; a non-string non-None `value` is returned as is; `None`
gives `default`. -/
def safe_json_loads (value : Option JVal) (default : Option JVal) : Option JVal :=
  match value with
  | some (.str s) =>
    (match jsonLoads s with
     | some v => some v
     | none =>
       match default with
       | some d => some d
       | none => some (.str s))
  | some v => some v
  | none => default

/-- Greedy match of one `(\d+)H`-style component of the duration regex at the
start of `cs`: if a nonempty digit run is followed by the letter `c`, return
its value and the input after the letter, else no component and the input
unchanged.  (Backtracking over `\d+` cannot help, because a shorter digit run
is followed by another digit, not by the letter.) -/
def matchComp (c : Char) (cs : List Char) : Option Nat × List Char :=
  match cs.takeWhile Char.isDigit, cs.dropWhile Char.isDigit with
  | [], _ => (none, cs)
  | _ :: _, [] => (none, cs)
  | ds, c' :: rest => if c' = c then (some (digitsToNat ds), rest) else (none, cs)

/-- `parse_time_to_minutes(time_str)` (pipeline/utils.py, duplicated in
utils/streamlit_helpes.py): `None` or an empty (falsy) string give `None`;
otherwise `re.match(r"PT(?:(\d+)H)?(?:(\d+)M)?", time_str)` — `None` when the
string does not start with `PT`, else sixty times the hour component plus the
minute component, each defaulting to zero. -/
def parse_time_to_minutes (time_str : Option (List Char)) : Option Nat :=
  match time_str with
  | none => none
  | some [] => none
  | some ('P' :: 'T' :: rest) =>
    (match matchComp 'H' rest with
     | (h, rest1) =>
       match matchComp 'M' rest1 with
       | (m, _) => some (60 * h.getD 0 + m.getD 0))
  | some (_ :: _) => none

theorem matchComp_none (c : Char) (cs : List Char) (h : (matchComp c cs).1 = none) :
    matchComp c cs = (none, cs) := by
  unfold matchComp at h ⊢
  split at h
  · rfl
  · rfl
  · split at h
    · cases h
    · rename_i hif
      rw [if_neg hif]

theorem matchComp_digits (c : Char) (hc : c.isDigit = false) (n : Nat) (rest : List Char) :
    matchComp c (natDigits n ++ c :: rest) = (some n, rest) := by
  have htake : (natDigits n ++ c :: rest).takeWhile Char.isDigit = natDigits n := by
    rw [takeWhile_append_all Char.isDigit _ _ (natDigits_all_digits n)]
    simp [List.takeWhile_cons, hc]
  have hdrop : (natDigits n ++ c :: rest).dropWhile Char.isDigit = c :: rest := by
    rw [dropWhile_append_all Char.isDigit _ _ (natDigits_all_digits n)]
    simp [List.dropWhile_cons, hc]
  obtain ⟨d, ds, hds⟩ := List.exists_cons_of_ne_nil (natDigits_ne_nil n)
  unfold matchComp
  rw [htake, hdrop, hds]
  show (if c = c then (some (digitsToNat (d :: ds)), rest) else _) = _
  rw [if_pos rfl, ← hds, digitsToNat_natDigits]

theorem matchComp_nil (c : Char) : matchComp c [] = (none, []) := rfl

/-- C10: `parse_time_to_minutes` returns `None` for every `None` or
empty-string input and for every non-empty string that does not begin with
`"PT"`; for every string of the form `"PT{h}H{m}M"` (either component
optional) it returns `60*h + m`; and for every non-empty string beginning
with `"PT"` whose remainder matches neither component (e.g. `"PTinvalid"`)
it returns `0` rather than `None`, despite its documentation saying invalid
input yields `None`. -/
theorem c10_parse_time_to_minutes :
    (parse_time_to_minutes none = none ∧ parse_time_to_minutes (some []) = none) ∧
    (∀ cs : List Char, cs ≠ [] → (∀ r, cs ≠ 'P' :: 'T' :: r) →
      parse_time_to_minutes (some cs) = none) ∧
    (∀ h m : Nat,
      parse_time_to_minutes
          (some ('P' :: 'T' :: (natDigits h ++ 'H' :: (natDigits m ++ ['M'])))) =
        some (60 * h + m) ∧
      parse_time_to_minutes (some ('P' :: 'T' :: (natDigits h ++ ['H']))) =
        some (60 * h) ∧
      parse_time_to_minutes (some ('P' :: 'T' :: (natDigits m ++ ['M']))) =
        some m ∧
      parse_time_to_minutes (some ['P', 'T']) = some 0) ∧
    (∀ r : List Char, (matchComp 'H' r).1 = none → (matchComp 'M' r).1 = none →
      parse_time_to_minutes (some ('P' :: 'T' :: r)) = some 0) := by
  refine ⟨⟨rfl, rfl⟩, ?_, ?_, ?_⟩
  · intro cs hne hnpt
    rw [parse_time_to_minutes.eq_def]
    split
    · rfl
    · rfl
    · rename_i heq
      injection heq with heq'
      exact absurd heq' (hnpt _)
    · rfl
  · intro h m
    refine ⟨?_, ?_, ?_, rfl⟩
    · show (match matchComp 'H' (natDigits h ++ 'H' :: (natDigits m ++ ['M'])) with
        | (hh, rest1) =>
          match matchComp 'M' rest1 with
          | (mm, _) => some (60 * hh.getD 0 + mm.getD 0)) = _
      rw [matchComp_digits 'H' (by decide) h (natDigits m ++ ['M'])]
      dsimp only []
      rw [show natDigits m ++ ['M'] = natDigits m ++ 'M' :: [] from rfl,
        matchComp_digits 'M' (by decide) m []]
      rfl
    · show (match matchComp 'H' (natDigits h ++ ['H']) with
        | (hh, rest1) =>
          match matchComp 'M' rest1 with
          | (mm, _) => some (60 * hh.getD 0 + mm.getD 0)) = _
      rw [show natDigits h ++ ['H'] = natDigits h ++ 'H' :: [] from rfl,
        matchComp_digits 'H' (by decide) h []]
      dsimp only []
      rw [matchComp_nil]
      rfl
    · show (match matchComp 'H' (natDigits m ++ ['M']) with
        | (hh, rest1) =>
          match matchComp 'M' rest1 with
          | (mm, _) => some (60 * hh.getD 0 + mm.getD 0)) = _
      have hH : (matchComp 'H' (natDigits m ++ ['M'])).1 = none := by
        unfold matchComp
        rw [takeWhile_append_all Char.isDigit _ _ (natDigits_all_digits m),
          dropWhile_append_all Char.isDigit _ _ (natDigits_all_digits m)]
        obtain ⟨d, ds, hds⟩ := List.exists_cons_of_ne_nil (natDigits_ne_nil m)
        simp only [List.takeWhile_cons, List.dropWhile_cons]
        rw [show ('M').isDigit = false from by decide]
        simp only [Bool.false_eq_true, if_false, List.append_nil, hds]
        rw [if_neg (by decide : ¬ ('M' = 'H'))]
      rw [matchComp_none 'H' _ hH]
      dsimp only []
      rw [show natDigits m ++ ['M'] = natDigits m ++ 'M' :: [] from rfl,
        matchComp_digits 'M' (by decide) m []]
      simp
  · intro r h1 h2
    show (match matchComp 'H' r with
      | (hh, rest1) =>
        match matchComp 'M' rest1 with
        | (mm, _) => some (60 * hh.getD 0 + mm.getD 0)) = _
    rw [matchComp_none 'H' r h1]
    dsimp only []
    rw [matchComp_none 'M' r h2]
    rfl

/-- Witness for C10 at the concrete inputs `"PT1H30M"`, `"X"` and
`"PTinvalid"`. -/
theorem c10_parse_time_to_minutes_witness :
    parse_time_to_minutes
        (some ('P' :: 'T' :: (natDigits 1 ++ 'H' :: (natDigits 30 ++ ['M'])))) =
      some (60 * 1 + 30) ∧
    parse_time_to_minutes (some ['X']) = none ∧
    parse_time_to_minutes (some ('P' :: 'T' ::
      ['i', 'n', 'v', 'a', 'l', 'i', 'd'])) = some 0 :=
  ⟨(c10_parse_time_to_minutes.2.2.1 1 30).1,
    c10_parse_time_to_minutes.2.1 ['X'] (by simp) (fun r => by simp),
    c10_parse_time_to_minutes.2.2.2 ['i', 'n', 'v', 'a', 'l', 'i', 'd']
      (by decide) (by decide)⟩

/-! ## The loader (`pipeline/recipes_loader.py`)

A recipe record is a JSON object.  `dish_name` and `origin` are required
(`record['dish_name']` / `record['origin']` raise `KeyError` when absent)
and are taken to be strings, as in the corpus (a non-string `dish_name`
would raise `AttributeError` on `.replace`); the remaining fields are
optional and, when present, well-typed: lists of strings for
`ingredients`/`steps`, a string-keyed object for `nutrition`, strings for
the time fields, notes and URLs (mis-typed values would raise inside
`_format_data` and are mapped to the `badData` error below; an explicit
JSON `null` is treated as an absent field). -/

structure RecipeRecord where
  dish_name : List Char
  origin : List Char
  prep_time : Option (List Char)
  cook_time : Option (List Char)
  total_time : Option (List Char)
  servings : Option JVal
  ingredients : Option (List (List Char))
  steps : Option (List (List Char))
  notes : Option (List Char)
  nutrition : Option (List (List Char × JVal))
  source_url : Option (List Char)
  image_url : Option (List Char)

/-- A metadata value: `none` is Python `None`. -/
abbrev MVal := Option JVal

/-- A Document's metadata: an insertion-ordered string-keyed dict. -/
abbrev Meta := List (String × MVal)

/-- A LangChain `Document`: page content plus metadata. -/
structure Doc where
  page_content : List Char
  metadata : Meta

/-- Python `str()` of a JSON value, as used in f-strings (`chunk_id`,
nutrition lines).  Only the primitive cases are exercised by the pipeline;
for containers the JSON rendering stands in for Python's `repr` (which
differs only in quoting). -/
def pyStr : JVal → List Char
  | .str s => s
  | .num n => intDump n
  | .bool true => ['T', 'r', 'u', 'e']
  | .bool false => ['F', 'a', 'l', 's', 'e']
  | .null => ['N', 'o', 'n', 'e']
  | .arr xs => jdumpVal (.arr xs)
  | .obj kvs => jdumpVal (.obj kvs)

/-- Python `str()` of a metadata value (`None` prints as `"None"`). -/
def mvalStr : MVal → List Char
  | none => ['N', 'o', 'n', 'e']
  | some v => pyStr v

/-- Python truthiness of an optional list (`if record.get(k):`): absent and
empty are falsy. -/
def optTruthy : {α : Type} → Option (List α) → Bool
  | _, none => false
  | _, some [] => false
  | _, some (_ :: _) => true

/-- `record['dish_name'].replace(' ', '_')`. -/
def replaceSpaceUnderscore (s : List Char) : List Char :=
  s.map (fun c => if c = ' ' then '_' else c)

/-- The structured `page_content` `_format_data` builds for one record:
the dish and origin lines always, then one block per present-and-nonempty
optional section, joined by blank lines. -/
def recordSections (r : RecipeRecord) : List (List Char) :=
  (["Dish: ".toList ++ r.dish_name, "Origin: ".toList ++ r.origin]) ++
  (if optTruthy r.ingredients then
    ["Ingredients:\n- ".toList ++
      List.intercalate "\n- ".toList (r.ingredients.getD [])]
  else []) ++
  (if optTruthy r.steps then
    ["Steps:\n".toList ++
      List.intercalate "\n".toList
        ((r.steps.getD []).enum.map
          (fun p => natDigits (p.1 + 1) ++ ". ".toList ++ p.2))]
  else []) ++
  (if optTruthy r.notes then ["Notes:\n".toList ++ r.notes.getD []] else []) ++
  (if optTruthy r.nutrition then
    ["Nutrition:\n".toList ++
      List.intercalate "\n".toList
        ((r.nutrition.getD []).map (fun kv => kv.1 ++ ": ".toList ++ pyStr kv.2))]
  else []) ++
  (if optTruthy r.source_url then
    ["Source: ".toList ++ r.source_url.getD []]
  else [])

/-- The metadata dict `_format_data` builds for one record. -/
def recordMeta (r : RecipeRecord) : Meta :=
  [("id", some (.str (replaceSpaceUnderscore r.dish_name ++ '_' :: r.origin))),
   ("dish_name", some (.str r.dish_name)),
   ("origin", some (.str r.origin)),
   ("prep_time", r.prep_time.map .str),
   ("cook_time", r.cook_time.map .str),
   ("total_time", r.total_time.map .str),
   ("servings", r.servings),
   ("ingredients", some (.str (jdumpVal (.arr ((r.ingredients.getD []).map .str))))),
   ("steps", some (.str (jdumpVal (.arr ((r.steps.getD []).map .str))))),
   ("notes", r.notes.map .str),
   ("nutrition", some (.str (jdumpVal (.obj (r.nutrition.getD []))))),
   ("source_url", r.source_url.map .str),
   ("image_url", r.image_url.map .str),
   ("section", some (.str "full_recipe".toList))]

/-- One Document per record, as built by the loop body of `_format_data`. -/
def format_record (r : RecipeRecord) : Doc :=
  ⟨List.intercalate "\n\n".toList (recordSections r), recordMeta r⟩

/-- `_format_data(data)`: one Document per record, in input order. -/
def format_data (records : List RecipeRecord) : List Doc :=
  records.map format_record

/-- Python-dict lookup in a parsed JSON object (`record[k]` /
`record.get(k)`); with duplicate keys the last wins, as in `json.loads`. -/
def dictGet (kvs : List (List Char × JVal)) (k : List Char) : Option JVal :=
  ((kvs.filter (fun kv => kv.1 = k)).getLast?).map (fun kv => kv.2)

/-- Read an optional string field (absent or JSON `null` give `none`;
any other non-string value is a type error). -/
def getOptStr (v : Option JVal) : Option (Option (List Char)) :=
  match v with
  | none => some none
  | some .null => some none
  | some (.str s) => some (some s)
  | some _ => none

/-- Read one string item of a list-of-strings field. -/
def getStrItem : JVal → Option (List Char)
  | .str s => some s
  | _ => none

/-- Read an optional list-of-strings field. -/
def getOptStrList (v : Option JVal) : Option (Option (List (List Char))) :=
  match v with
  | none => some none
  | some .null => some none
  | some (.arr xs) => (xs.mapM getStrItem).map some
  | some _ => none

/-- Read an optional object field. -/
def getOptObj (v : Option JVal) : Option (Option (List (List Char × JVal))) :=
  match v with
  | none => some none
  | some .null => some none
  | some (.obj kvs) => some (some kvs)
  | some _ => none

/-- Interpret one parsed JSON value as a recipe record; `none` models the
exception `_format_data` would raise on a malformed record. -/
def toRecord (v : JVal) : Option RecipeRecord :=
  match v with
  | .obj kvs =>
    (match dictGet kvs "dish_name".toList, dictGet kvs "origin".toList with
     | some (.str dn), some (.str og) =>
       (match getOptStr (dictGet kvs "prep_time".toList),
           getOptStr (dictGet kvs "cook_time".toList),
           getOptStr (dictGet kvs "total_time".toList),
           getOptStrList (dictGet kvs "ingredients".toList),
           getOptStrList (dictGet kvs "steps".toList),
           getOptStr (dictGet kvs "notes".toList),
           getOptObj (dictGet kvs "nutrition".toList),
           getOptStr (dictGet kvs "source_url".toList),
           getOptStr (dictGet kvs "image_url".toList) with
        | some pt, some ct, some tt, some ing, some st, some nt, some nut,
            some su, some iu =>
          some ⟨dn, og, pt, ct, tt, dictGet kvs "servings".toList,
            ing, st, nt, nut, su, iu⟩
        | _, _, _, _, _, _, _, _, _ => none)
     | _, _ => none)
  | _ => none

/-- Interpret the parsed corpus file as a list of records (the file must
hold a JSON array). -/
def toRecords (v : JVal) : Option (List RecipeRecord) :=
  match v with
  | .arr xs => xs.mapM toRecord
  | _ => none

/-- The errors `load_recipes` can surface: the explicit
`FileNotFoundError` (the spec's `NotFound`), or any other exception raised
while reading and formatting the data (`json.load` or `_format_data`). -/
inductive LoadErr where
  | notFound : LoadErr
  | badData : LoadErr
deriving DecidableEq

/-- `load_recipes(file_path)`: the filesystem is modelled as a map from
paths to file contents; a missing file raises `FileNotFoundError`,
otherwise the JSON corpus is parsed and formatted. -/
def load_recipes (fs : String → Option (List Char)) (file_path : String) :
    Except LoadErr (List Doc) :=
  match fs file_path with
  | some content =>
    (match (jsonLoads content).bind toRecords with
     | some records => .ok (format_data records)
     | none => .error .badData)
  | none => .error .notFound

/-- C6: for every file path at which no file exists, the loader fails
immediately with a NotFound error (`FileNotFoundError`); for every path at
which the corpus file exists, it does not raise this error (it may still
fail differently on malformed data). -/
theorem c6_load_recipes_notFound :
    (∀ (fs : String → Option (List Char)) (file_path : String),
      fs file_path = none → load_recipes fs file_path = .error .notFound) ∧
    (∀ (fs : String → Option (List Char)) (file_path : String) (content : List Char),
      fs file_path = some content →
        load_recipes fs file_path ≠ .error .notFound) := by
  constructor
  · intro fs file_path h
    unfold load_recipes
    rw [h]
  · intro fs file_path content h
    unfold load_recipes
    rw [h]
    dsimp only []
    cases hj : (jsonLoads content).bind toRecords <;> simp [hj]

/-- Witness for C6 at the concrete corpus path with an absent and a present
file. -/
theorem c6_load_recipes_notFound_witness :
    load_recipes (fun _ => none) "data/african_recipes.json" = .error .notFound ∧
    load_recipes (fun _ => some ['[', ']']) "data/african_recipes.json" ≠
      .error .notFound :=
  ⟨c6_load_recipes_notFound.1 _ "data/african_recipes.json" rfl,
    c6_load_recipes_notFound.2 _ "data/african_recipes.json" ['[', ']'] rfl⟩

/-- The fully degraded record: dish name and origin only. -/
def minimalRecord (name org : List Char) : RecipeRecord :=
  ⟨name, org, none, none, none, none, none, none, none, none, none, none⟩

/-- C7: for every list of valid recipe records (each supplying at minimum
dish name and origin), load produces exactly one Document per record, in
order; the absence of any optional field does not raise (`format_record` is
total) and yields a degraded Document with the missing sections omitted
from content and `None`/empty defaults in metadata, as spelled out for the
fully degraded record. -/
theorem c7_format_data_one_doc_per_record :
    (∀ records : List RecipeRecord,
      (format_data records).length = records.length ∧
      (∀ i (h : i < records.length),
        (format_data records).get ⟨i, by simpa [format_data] using h⟩ =
          format_record (records.get ⟨i, h⟩))) ∧
    (∀ name org : List Char,
      (format_record (minimalRecord name org)).page_content =
        "Dish: ".toList ++ name ++ "\n\n".toList ++ ("Origin: ".toList ++ org) ∧
      (format_record (minimalRecord name org)).metadata =
        [("id", some (.str (replaceSpaceUnderscore name ++ '_' :: org))),
         ("dish_name", some (.str name)),
         ("origin", some (.str org)),
         ("prep_time", none),
         ("cook_time", none),
         ("total_time", none),
         ("servings", none),
         ("ingredients", some (.str ['[', ']'])),
         ("steps", some (.str ['[', ']'])),
         ("notes", none),
         ("nutrition", some (.str ['{', '}'])),
         ("source_url", none),
         ("image_url", none),
         ("section", some (.str "full_recipe".toList))]) := by
  constructor
  · intro records
    constructor
    · simp [format_data]
    · intro i h
      simp [format_data]
  · intro name org
    constructor
    · show List.intercalate "\n\n".toList (recordSections (minimalRecord name org)) = _
      rw [show recordSections (minimalRecord name org) =
        ["Dish: ".toList ++ name, "Origin: ".toList ++ org] from rfl]
      simp [List.intercalate]
    · rfl

/-- Witness for C7 at a concrete record list and a concrete degraded
record. -/
theorem c7_format_data_one_doc_per_record_witness :
    (format_data [minimalRecord ['J'] ['N'], minimalRecord ['U'] ['K']]).length = 2 ∧
    (0 < 2 ∧
      (format_data [minimalRecord ['J'] ['N'], minimalRecord ['U'] ['K']]).get
          ⟨0, by simp [format_data]⟩ =
        format_record (([minimalRecord ['J'] ['N'], minimalRecord ['U'] ['K']]).get
          ⟨0, by simp⟩)) ∧
    (format_record (minimalRecord ['J'] ['N'])).page_content =
      "Dish: ".toList ++ ['J'] ++ "\n\n".toList ++ ("Origin: ".toList ++ ['N']) :=
  ⟨(c7_format_data_one_doc_per_record.1 _).1,
    ⟨by decide, (c7_format_data_one_doc_per_record.1 _).2 0 (by simp)⟩,
    (c7_format_data_one_doc_per_record.2 ['J'] ['N']).1⟩

/-! ## The answer-composition read side (`pipeline/chain.py`) -/

/-- Dict lookup in a Document's metadata (`doc.metadata[k]` raises
`KeyError` when the outer `Option` is `none`; the inner `MVal` may be
Python `None`). -/
def metaLookup (m : Meta) (k : String) : Option MVal :=
  (m.find? (fun kv => kv.1 = k)).map (fun kv => kv.2)

/-- `meta.get(k, default)`. -/
def metaGetD (m : Meta) (k : String) (d : JVal) : MVal :=
  match metaLookup m k with
  | some v => v
  | none => some d

/-- `json.loads` applied to a metadata value: a non-string raises
(`TypeError`), a malformed string raises (`JSONDecodeError`); both are
modelled by `none`. -/
def chain_loads_field (mv : MVal) : Option JVal :=
  match mv with
  | some (.str s) => jsonLoads s
  | _ => none

/-- The deserialization step of `_format_recipe_metadata` (chain.py lines
17-19): `json.loads(meta.get("ingredients", "[]"))`, then the same for
`steps` with default `"[]"` and `nutrition` with default `"{}"`.  A `none`
result models the uncaught exception the chain raises. -/
def chain_deserialize_fields (m : Meta) : Option (JVal × JVal × JVal) :=
  match chain_loads_field (metaGetD m "ingredients" (.str ['[', ']'])) with
  | none => none
  | some ing =>
    match chain_loads_field (metaGetD m "steps" (.str ['[', ']'])) with
    | none => none
    | some st =>
      match chain_loads_field (metaGetD m "nutrition" (.str ['{', '}'])) with
      | none => none
      | some nut => some (ing, st, nut)

/-- Counterexample to C3: a metadata dict whose `ingredients` field holds
the malformed JSON string `"oops"`.  The answer-composition read side
(`_format_recipe_metadata`, chain.py) raises — modelled by `none` — instead
of returning the caller-supplied empty-list default, while the lenient
`safe_json_loads` used by the UI read side does return the default on the
same input. -/
theorem c3_counterexample :
    jsonLoads ['o', 'o', 'p', 's'] = none ∧
    chain_deserialize_fields
      [("ingredients", some (.str ['o', 'o', 'p', 's']))] = none ∧
    safe_json_loads (some (.str ['o', 'o', 'p', 's'])) (some (.arr [])) =
      some (.arr []) :=
  ⟨rfl, rfl, rfl⟩

/-- C3 amended: for the read-side operations that decode through
`safe_json_loads` (app.py, utils/streamlit_helpes.py), a malformed stored
string yields the caller-supplied default; the answer-composition read side
(`_format_recipe_metadata`, chain.py) instead uses plain `json.loads` and
propagates the decode error. -/
theorem c3_malformed_json_defaults :
    (∀ (s : List Char) (d : JVal), jsonLoads s = none →
      safe_json_loads (some (.str s)) (some d) = some d) ∧
    (∀ (m : Meta) (s : List Char),
      metaGetD m "ingredients" (.str ['[', ']']) = some (.str s) →
      jsonLoads s = none →
      chain_deserialize_fields m = none) := by
  constructor
  · intro s d h
    unfold safe_json_loads
    dsimp only []
    rw [h]
  · intro m s hm h
    unfold chain_deserialize_fields
    rw [hm]
    unfold chain_loads_field
    dsimp only []
    rw [h]

/-- Witness for the amended C3 at the malformed string `"oops"`. -/
theorem c3_malformed_json_defaults_witness :
    safe_json_loads (some (.str ['o', 'o', 'p', 's'])) (some (.num 7)) =
      some (.num 7) ∧
    chain_deserialize_fields
      [("ingredients", some (.str ['o', 'o', 'p', 's'])),
       ("steps", some (.str ['[', ']']))] = none :=
  ⟨c3_malformed_json_defaults.1 ['o', 'o', 'p', 's'] (.num 7) rfl,
    c3_malformed_json_defaults.2 _ ['o', 'o', 'p', 's'] rfl rfl⟩

/-! ## The chunker (`pipeline/chunking.py`)

`create_chunks` splits each Document's `page_content` with LangChain's
`RecursiveCharacterTextSplitter(chunk_size, chunk_overlap,
separators=["\n\n", "\n", ".", " "])` and re-attaches the parent metadata
plus a `chunk_id`.  The splitter is modelled from `split_text` of
`langchain_text_splitters` (the class the deprecated `langchain.text_splitter`
path re-exports), with its default options `keep_separator=True` (the
separator is re-attached to the start of the following piece),
`is_separator_regex=False`, `strip_whitespace=True` and
`length_function=len`.  Since the separator list is fixed by the source,
the recursion over suffixes of that list is unrolled into one function per
level. -/

/-- The four separators, coarsest first, as fixed in `create_chunks`. -/
inductive SepKind where
  | nn : SepKind
  | nl : SepKind
  | dot : SepKind
  | sp : SepKind

/-- The characters of a separator. -/
def sepChars : SepKind → List Char
  | .nn => ['\n', '\n']
  | .nl => ['\n']
  | .dot => ['.']
  | .sp => [' ']

/-- Does the text contain the character? (`re.search` for the escaped
one-character separators.) -/
def containsChar (c : Char) (t : List Char) : Bool :=
  t.any (fun x => x = c)

/-- Does the text contain two consecutive newlines? (`re.search` for
`"\n\n"`.) -/
def hasNN : List Char → Bool
  | '\n' :: '\n' :: _ => true
  | _ :: rest => hasNN rest
  | [] => false

/-- `re.search(re.escape(sep), text)` for the fixed separators. -/
def sepFound : SepKind → List Char → Bool
  | .nn, t => hasNN t
  | .nl, t => containsChar '\n' t
  | .dot, t => containsChar '.' t
  | .sp, t => containsChar ' ' t

/-- `re.split` (without capture) on a one-character separator: the parts
between occurrences, in order, empty parts included. -/
def splitOnC (sep : Char) : List Char → List (List Char)
  | [] => [[]]
  | c :: rest =>
    if c = sep then [] :: splitOnC sep rest
    else
      match splitOnC sep rest with
      | [] => [[c]]
      | p :: ps => (c :: p) :: ps

/-- `re.split` (without capture) on `"\n\n"`: non-overlapping leftmost
occurrences. -/
def splitOnNN : List Char → List (List Char)
  | '\n' :: '\n' :: rest => [] :: splitOnNN rest
  | c :: rest =>
    (match splitOnNN rest with
     | [] => [[c]]
     | p :: ps => (c :: p) :: ps)
  | [] => [[]]

/-- The parts of splitting by one of the four separators. -/
def sepSplit : SepKind → List Char → List (List Char)
  | .nn, t => splitOnNN t
  | .nl, t => splitOnC '\n' t
  | .dot, t => splitOnC '.' t
  | .sp, t => splitOnC ' ' t

/-- `_split_text_with_regex(text, sep, keep_separator=True)`: the first
part, then each later part with the separator re-attached in front, empty
strings dropped. -/
def splitWithSep (k : SepKind) (t : List Char) : List (List Char) :=
  match sepSplit k t with
  | [] => []
  | p :: ps => (p :: ps.map (fun q => sepChars k ++ q)).filter (fun s => s ≠ [])

/-- Python `str.strip()` whitespace (the ASCII class; the splitter's
corpus is ASCII text). -/
def isPyWS (c : Char) : Bool :=
  c = ' ' || c = '\t' || c = '\n' || c = '\r' || c.toNat = 11 || c.toNat = 12

/-- Python `s.strip()`. -/
def stripChars (s : List Char) : List Char :=
  ((s.dropWhile isPyWS).reverse.dropWhile isPyWS).reverse

/-- `_join_docs(current_doc, "")`: concatenate, strip, `None` when the
result is empty. -/
def joinDocs (current : List (List Char)) : Option (List Char) :=
  match stripChars current.flatten with
  | [] => none
  | t => some t

/-- The overlap-window popping loop of `_merge_splits` (separator length
zero): keep dropping the head of the running window while the window is
longer than the overlap, or the next piece would not fit and the window is
nonempty. -/
def popWhile (size overlap l : Nat) : List (List Char) → Nat → List (List Char) × Nat
  | [], total => ([], total)
  | d :: ds, total =>
    if total > overlap ∨ (total + l > size ∧ 0 < total) then
      popWhile size overlap l ds (total - d.length)
    else (d :: ds, total)

/-- The accumulation loop of `_merge_splits`: `current`/`total` are the
running window and its length; when a piece would overflow the chunk size,
the window is flushed as one chunk and shrunk to the overlap. -/
def mergeLoop (size overlap : Nat) :
    List (List Char) → List (List Char) → Nat → List (List Char)
  | [], current, _ => (joinDocs current).toList
  | d :: ds, current, total =>
    if total + d.length > size then
      match current with
      | [] => mergeLoop size overlap ds [d] (total + d.length)
      | _ :: _ =>
        (joinDocs current).toList ++
          mergeLoop size overlap ds
            ((popWhile size overlap d.length current total).1 ++ [d])
            ((popWhile size overlap d.length current total).2 + d.length)
    else mergeLoop size overlap ds (current ++ [d]) (total + d.length)

/-- `_merge_splits(splits, "")`. -/
def mergeSplits (size overlap : Nat) (splits : List (List Char)) : List (List Char) :=
  mergeLoop size overlap splits [] 0

/-- The loop of `_split_text` over the pieces of one regex split: pieces
shorter than the chunk size gather in the `good` buffer and are merged;
a piece at least as long as the chunk size flushes the buffer and is
handed to `recurse` (the splitter for the remaining separators, or the
pass-through `fun s => [s]` when no separator remains). -/
def procSplits (recurse : List Char → List (List Char)) (size overlap : Nat) :
    List (List Char) → List (List Char) → List (List Char)
  | [], good => if good.isEmpty then [] else mergeSplits size overlap good
  | s :: rest, good =>
    if s.length < size then procSplits recurse size overlap rest (good ++ [s])
    else
      (if good.isEmpty then [] else mergeSplits size overlap good) ++
        recurse s ++ procSplits recurse size overlap rest []

/-- `_split_text(text, [" "])`: the last separator level; oversized pieces
pass through unchanged. -/
def splitBySp (size overlap : Nat) (text : List Char) : List (List Char) :=
  procSplits (fun s => [s]) size overlap (splitWithSep .sp text) []

/-- `_split_text(text, [".", " "])`. -/
def splitByDot (size overlap : Nat) (text : List Char) : List (List Char) :=
  if sepFound .dot text then
    procSplits (splitBySp size overlap) size overlap (splitWithSep .dot text) []
  else splitBySp size overlap text

/-- `_split_text(text, ["\n", ".", " "])`. -/
def splitByNl (size overlap : Nat) (text : List Char) : List (List Char) :=
  if sepFound .nl text then
    procSplits (splitByDot size overlap) size overlap (splitWithSep .nl text) []
  else splitByDot size overlap text

/-- `split_text(text)` of the splitter built by `create_chunks`. -/
def split_text (size overlap : Nat) (text : List Char) : List (List Char) :=
  if sepFound .nn text then
    procSplits (splitByNl size overlap) size overlap (splitWithSep .nn text) []
  else splitByNl size overlap text

/-- `{**doc.metadata, "chunk_id": v}`: replace in place or append. -/
def insertMeta (m : Meta) (k : String) (v : MVal) : Meta :=
  if m.any (fun kv => kv.1 = k) then
    m.map (fun kv => if kv.1 = k then (k, v) else kv)
  else m ++ [(k, v)]

/-- The chunks `create_chunks` builds from one Document: one chunk per
split piece, the parent metadata plus
`chunk_id = f"{doc.metadata['id']}_{i}"`; `none` models the `KeyError`
when the parent has no `id`. -/
def chunkDoc (chunk_size chunk_overlap : Nat) (d : Doc) : Option (List Doc) :=
  match metaLookup d.metadata "id" with
  | none => none
  | some idv =>
    some (((split_text chunk_size chunk_overlap d.page_content).enum).map
      (fun p => ⟨p.2, insertMeta d.metadata "chunk_id"
        (some (.str (mvalStr idv ++ '_' :: natDigits p.1)))⟩))

/-- `create_chunks(docs, chunk_size=800, chunk_overlap=50)`. -/
def create_chunks (docs : List Doc) (chunk_size chunk_overlap : Nat) :
    Option (List Doc) :=
  (docs.mapM (chunkDoc chunk_size chunk_overlap)).map List.flatten

/-! ## Properties of the splitter -/

theorem splitOnC_ne_nil (c : Char) (t : List Char) : splitOnC c t ≠ [] := by
  cases t with
  | nil => simp [splitOnC]
  | cons x rest =>
    rw [splitOnC]
    split
    · simp
    · split <;> simp

theorem splitOnC_cons_ne (c x : Char) (t : List Char) (h : ¬ x = c) :
    ∃ p ps, splitOnC c t = p :: ps ∧ splitOnC c (x :: t) = (x :: p) :: ps := by
  obtain ⟨p, ps, hps⟩ := List.exists_cons_of_ne_nil (splitOnC_ne_nil c t)
  refine ⟨p, ps, hps, ?_⟩
  rw [splitOnC, if_neg h, hps]

theorem splitOnC_no_sep (c : Char) (t : List Char) :
    ∀ p ∈ splitOnC c t, ∀ ch ∈ p, ch ≠ c := by
  induction t with
  | nil =>
    intro p hp
    simp [splitOnC] at hp
    simp [hp]
  | cons x rest ih =>
    by_cases hx : x = c
    · intro p hp
      rw [splitOnC, if_pos hx] at hp
      rcases List.mem_cons.mp hp with h | h
      · simp [h]
      · exact ih p h
    · obtain ⟨q, qs, hqs, hcons⟩ := splitOnC_cons_ne c x rest hx
      intro p hp
      rw [hcons] at hp
      rcases List.mem_cons.mp hp with h | h
      · subst h
        intro ch hch
        rcases List.mem_cons.mp hch with h' | h'
        · subst h'
          exact hx
        · exact ih q (by rw [hqs]; simp) ch h'
      · exact ih p (by rw [hqs]; simp [h])

theorem splitOnC_mem (c : Char) (t : List Char) :
    ∀ p ∈ splitOnC c t, ∀ ch ∈ p, ch ∈ t := by
  induction t with
  | nil =>
    intro p hp
    simp [splitOnC] at hp
    simp [hp]
  | cons x rest ih =>
    by_cases hx : x = c
    · intro p hp
      rw [splitOnC, if_pos hx] at hp
      rcases List.mem_cons.mp hp with h | h
      · simp [h]
      · intro ch hch
        exact List.mem_cons_of_mem x (ih p h ch hch)
    · obtain ⟨q, qs, hqs, hcons⟩ := splitOnC_cons_ne c x rest hx
      intro p hp
      rw [hcons] at hp
      rcases List.mem_cons.mp hp with h | h
      · subst h
        intro ch hch
        rcases List.mem_cons.mp hch with h' | h'
        · simp [h']
        · exact List.mem_cons_of_mem x (ih q (by rw [hqs]; simp) ch h')
      · intro ch hch
        exact List.mem_cons_of_mem x (ih p (by rw [hqs]; simp [h]) ch hch)

theorem splitOnNN_ne_nil (t : List Char) : splitOnNN t ≠ [] := by
  rw [splitOnNN.eq_def]
  split
  · simp
  · split <;> simp
  · simp

theorem splitOnC_mem_of_mem (c : Char) (t : List Char) (ch : Char)
    (hch : ch ∈ t) (hne : ch ≠ c) : ∃ p ∈ splitOnC c t, ch ∈ p := by
  induction t with
  | nil => cases hch
  | cons x rest ih =>
    by_cases hx : x = c
    · have hch' : ch ∈ rest := by
        rcases List.mem_cons.mp hch with h | h
        · exact absurd (h.trans hx) hne
        · exact h
      obtain ⟨p, hp, hchp⟩ := ih hch'
      refine ⟨p, ?_, hchp⟩
      rw [splitOnC, if_pos hx]
      exact List.mem_cons_of_mem _ hp
    · obtain ⟨q, qs, hqs, hcons⟩ := splitOnC_cons_ne c x rest hx
      rcases List.mem_cons.mp hch with h | h
      · refine ⟨x :: q, ?_, by simp [h]⟩
        rw [hcons]
        simp
      · obtain ⟨p, hp, hchp⟩ := ih h
        rw [hqs] at hp
        rcases List.mem_cons.mp hp with h' | h'
        · subst h'
          refine ⟨x :: p, ?_, List.mem_cons_of_mem x hchp⟩
          rw [hcons]
          simp
        · refine ⟨p, ?_, hchp⟩
          rw [hcons]
          exact List.mem_cons_of_mem _ h'

theorem splitOnNN_cons_ne (x : Char) (rest : List Char)
    (h : ¬ (x = '\n' ∧ ∃ r, rest = '\n' :: r)) :
    ∃ p ps, splitOnNN rest = p :: ps ∧ splitOnNN (x :: rest) = (x :: p) :: ps := by
  obtain ⟨p, ps, hps⟩ := List.exists_cons_of_ne_nil (splitOnNN_ne_nil rest)
  refine ⟨p, ps, hps, ?_⟩
  rw [splitOnNN.eq_def]
  split
  · rename_i rest' heq
    injection heq with h1 h2
    exact absurd ⟨h1, rest', h2⟩ h
  · rename_i c rest' heq
    injection heq with h1 h2
    subst h1
    subst h2
    rw [hps]
  · rename_i heq
    cases heq

theorem splitOnNN_mem_of_mem (t : List Char) (ch : Char)
    (hch : ch ∈ t) (hne : ch ≠ '\n') : ∃ p ∈ splitOnNN t, ch ∈ p := by
  by_cases hd : ∃ r, t = '\n' :: '\n' :: r
  · obtain ⟨r, heq⟩ := hd
    have hch' : ch ∈ r := by
      rw [heq] at hch
      rcases List.mem_cons.mp hch with h | h
      · exact absurd h hne
      rcases List.mem_cons.mp h with h' | h'
      · exact absurd h' hne
      · exact h'
    obtain ⟨p, hp, hchp⟩ := splitOnNN_mem_of_mem r ch hch' hne
    rw [heq,
      show splitOnNN ('\n' :: '\n' :: r) = [] :: splitOnNN r from by rw [splitOnNN]]
    exact ⟨p, List.mem_cons_of_mem _ hp, hchp⟩
  · cases t with
    | nil => cases hch
    | cons x rest =>
      have hcond : ¬ (x = '\n' ∧ ∃ r, rest = '\n' :: r) := by
        rintro ⟨rfl, r, rfl⟩
        exact hd ⟨r, rfl⟩
      obtain ⟨p, ps, hps, hcons⟩ := splitOnNN_cons_ne x rest hcond
      rcases List.mem_cons.mp hch with h | h
      · rw [hcons]
        exact ⟨x :: p, by simp, by simp [h]⟩
      · obtain ⟨q, hq, hchq⟩ := splitOnNN_mem_of_mem rest ch h hne
        rw [hps] at hq
        rw [hcons]
        rcases List.mem_cons.mp hq with h' | h'
        · subst h'
          exact ⟨x :: q, by simp, List.mem_cons_of_mem x hchq⟩
        · exact ⟨q, by simp [h'], hchq⟩
termination_by t.length
decreasing_by
  all_goals first
    | (rw [heq]; simp only [List.length_cons]; omega)
    | (simp_all only [List.length_cons]; omega)

/-! ### The merge step never exceeds the chunk size -/

/-- Total length of a list of pieces (the splitter's running `total` with a
zero-length join separator). -/
def sumLen (l : List (List Char)) : Nat :=
  (l.map List.length).sum

theorem sumLen_nil : sumLen [] = 0 := rfl

theorem sumLen_append (a b : List (List Char)) :
    sumLen (a ++ b) = sumLen a + sumLen b := by
  simp [sumLen]

theorem sumLen_cons (d : List Char) (l : List (List Char)) :
    sumLen (d :: l) = d.length + sumLen l := by
  simp [sumLen]

theorem stripChars_length_le (s : List Char) : (stripChars s).length ≤ s.length := by
  unfold stripChars
  calc ((s.dropWhile isPyWS).reverse.dropWhile isPyWS).reverse.length
      = ((s.dropWhile isPyWS).reverse.dropWhile isPyWS).length := by
        rw [List.length_reverse]
    _ ≤ (s.dropWhile isPyWS).reverse.length :=
        (List.dropWhile_sublist _).length_le
    _ = (s.dropWhile isPyWS).length := by rw [List.length_reverse]
    _ ≤ s.length := (List.dropWhile_sublist _).length_le

theorem joinDocs_length (current : List (List Char)) (c : List Char)
    (h : c ∈ (joinDocs current).toList) : c.length ≤ sumLen current := by
  unfold joinDocs at h
  cases hs : stripChars current.flatten with
  | nil =>
    rw [hs] at h
    cases h
  | cons y ys =>
    rw [hs] at h
    simp at h
    subst h
    calc (y :: ys).length = (stripChars current.flatten).length := by rw [hs]
      _ ≤ current.flatten.length := stripChars_length_le _
      _ = sumLen current := by simp [sumLen]

theorem popWhile_spec (size overlap l : Nat) (current : List (List Char)) (total : Nat)
    (hsum : sumLen current = total) :
    sumLen (popWhile size overlap l current total).1 =
      (popWhile size overlap l current total).2 ∧
    (popWhile size overlap l current total).2 ≤ overlap ∧
    ((popWhile size overlap l current total).2 + l ≤ size ∨
      (popWhile size overlap l current total).2 = 0) := by
  induction current generalizing total with
  | nil =>
    have h0 : total = 0 := by rw [← hsum]; rfl
    subst h0
    rw [popWhile]
    exact ⟨rfl, by omega, Or.inr rfl⟩
  | cons d ds ih =>
    rw [popWhile]
    split
    · have hsum' : sumLen ds = total - d.length := by
        rw [sumLen_cons] at hsum
        omega
      exact ih (total - d.length) hsum'
    · rename_i hcond
      push_neg at hcond
      refine ⟨hsum, hcond.1, ?_⟩
      by_cases hfit : total + l ≤ size
      · exact Or.inl hfit
      · have h0 := hcond.2 (by omega)
        exact Or.inr (by omega)

theorem mergeLoop_nil (size overlap : Nat) (current : List (List Char)) (total : Nat) :
    mergeLoop size overlap [] current total = (joinDocs current).toList := rfl

theorem mergeLoop_cons (size overlap : Nat) (d : List Char) (ds current : List (List Char))
    (total : Nat) :
    mergeLoop size overlap (d :: ds) current total =
      if total + d.length > size then
        match current with
        | [] => mergeLoop size overlap ds [d] (total + d.length)
        | _ :: _ =>
          (joinDocs current).toList ++
            mergeLoop size overlap ds
              ((popWhile size overlap d.length current total).1 ++ [d])
              ((popWhile size overlap d.length current total).2 + d.length)
      else mergeLoop size overlap ds (current ++ [d]) (total + d.length) := by
  rw [mergeLoop.eq_def]

theorem mergeLoop_bound (size overlap : Nat) (ds : List (List Char)) :
    ∀ (current : List (List Char)) (total : Nat),
    (∀ s ∈ ds, s.length < size) → sumLen current = total → total ≤ size →
    ∀ c ∈ mergeLoop size overlap ds current total, c.length ≤ size := by
  induction ds with
  | nil =>
    intro current total _ hsum htot c hc
    rw [mergeLoop_nil] at hc
    calc c.length ≤ sumLen current := joinDocs_length current c hc
      _ = total := hsum
      _ ≤ size := htot
  | cons d ds ih =>
    intro current total hds hsum htot c hc
    have hd : d.length < size := hds d (by simp)
    have hds' : ∀ s ∈ ds, s.length < size := fun s hs => hds s (by simp [hs])
    rw [mergeLoop_cons] at hc
    split at hc
    · rename_i hover
      cases current with
      | nil =>
        rw [sumLen_nil] at hsum
        omega
      | cons x xs =>
        rcases List.mem_append.mp hc with h | h
        · calc c.length ≤ sumLen (x :: xs) := joinDocs_length (x :: xs) c h
            _ = total := hsum
            _ ≤ size := htot
        · obtain ⟨hsum', hovl, hfit⟩ :=
            popWhile_spec size overlap d.length (x :: xs) total hsum
          refine ih ((popWhile size overlap d.length (x :: xs) total).1 ++ [d])
            ((popWhile size overlap d.length (x :: xs) total).2 + d.length)
            hds' ?_ ?_ c h
          · rw [sumLen_append, hsum', sumLen_cons, sumLen_nil]
            omega
          · rcases hfit with h' | h' <;> omega
    · refine ih (current ++ [d]) (total + d.length) hds' ?_ ?_ c hc
      · rw [sumLen_append, hsum, sumLen_cons, sumLen_nil]
        omega
      · omega

theorem mergeSplits_bound (size overlap : Nat) (splits : List (List Char))
    (h : ∀ s ∈ splits, s.length < size) :
    ∀ c ∈ mergeSplits size overlap splits, c.length ≤ size :=
  mergeLoop_bound size overlap splits [] 0 h rfl (by omega)

/-! ### Shape of oversized pass-through chunks -/

/-- A character of one of the four separators. -/
def isSepChar (c : Char) : Bool :=
  c = '\n' || c = '.' || c = ' '

/-- An unsplittable run of non-separator characters, possibly preceded by a
single separator occurrence (the separator the splitter re-attached to the
piece). -/
def sepPrefixRun (chunk : List Char) : Prop :=
  ∃ pre run, chunk = pre ++ run ∧
    (pre = [] ∨ pre = ['\n'] ∨ pre = ['.'] ∨ pre = [' ']) ∧
    ∀ ch ∈ run, isSepChar ch = false

/-- Texts reaching the `[".", " "]` level: at most one leading `'\n'`,
no other newline. -/
def InvDot (t : List Char) : Prop :=
  ∃ pre body, t = pre ++ body ∧ (pre = [] ∨ pre = ['\n']) ∧
    ∀ ch ∈ body, ch ≠ '\n'

/-- Texts reaching the `[" "]` level: at most one leading `'\n'` or `'.'`,
no other newline or dot. -/
def InvSp (t : List Char) : Prop :=
  ∃ pre body, t = pre ++ body ∧ (pre = [] ∨ pre = ['\n'] ∨ pre = ['.']) ∧
    ∀ ch ∈ body, ch ≠ '\n' ∧ ch ≠ '.'

theorem sepSplit_ne_nil (k : SepKind) (t : List Char) : sepSplit k t ≠ [] := by
  cases k with
  | nn => exact splitOnNN_ne_nil t
  | nl => exact splitOnC_ne_nil '\n' t
  | dot => exact splitOnC_ne_nil '.' t
  | sp => exact splitOnC_ne_nil ' ' t

theorem mem_splitWithSep_cases (k : SepKind) (t p : List Char)
    (hp : p ∈ splitWithSep k t) :
    ∃ p0 ps, sepSplit k t = p0 :: ps ∧
      (p = p0 ∨ ∃ q ∈ ps, p = sepChars k ++ q) := by
  obtain ⟨p0, ps, hps⟩ := List.exists_cons_of_ne_nil (sepSplit_ne_nil k t)
  refine ⟨p0, ps, hps, ?_⟩
  unfold splitWithSep at hp
  rw [hps] at hp
  have hp' := List.mem_of_mem_filter hp
  rcases List.mem_cons.mp hp' with h | h
  · exact Or.inl h
  · obtain ⟨q, hq, hqe⟩ := List.mem_map.mp h
    exact Or.inr ⟨q, hq, hqe.symm⟩

theorem splitWithSep_pieces (c : Char) (k : SepKind)
    (hsp : ∀ u, sepSplit k u = splitOnC c u) (hsc : sepChars k = [c])
    (good : Char → Prop)
    (pre body : List Char) (hpre : pre = [] ∨ ∃ x, pre = [x] ∧ ¬ x = c)
    (hbody : ∀ ch ∈ body, good ch) :
    ∀ p ∈ splitWithSep k (pre ++ body),
      ∃ pre2 q, p = pre2 ++ q ∧ (pre2 = pre ∨ pre2 = [] ∨ pre2 = [c]) ∧
        ∀ ch ∈ q, good ch ∧ ch ≠ c := by
  intro p hp
  obtain ⟨p0, ps, hps, hcase⟩ := mem_splitWithSep_cases k _ p hp
  rw [hsp] at hps
  have hmemgood : ∀ q ∈ splitOnC c body, ∀ ch ∈ q, good ch ∧ ch ≠ c := by
    intro q hq ch hch
    exact ⟨hbody ch (splitOnC_mem c body q hq ch hch),
           splitOnC_no_sep c body q hq ch hch⟩
  rcases hpre with h | ⟨x, hx, hxc⟩
  · subst h
    simp only [List.nil_append] at hps
    rcases hcase with h | ⟨q, hq, he⟩
    · exact ⟨[], p0, by simp [h], Or.inr (Or.inl rfl),
        hmemgood p0 (by rw [hps]; exact List.mem_cons_self _ _)⟩
    · rw [hsc] at he
      exact ⟨[c], q, he, Or.inr (Or.inr rfl),
        hmemgood q (by rw [hps]; exact List.mem_cons_of_mem _ hq)⟩
  · subst hx
    simp only [List.cons_append, List.nil_append] at hps
    obtain ⟨q0, qs, hqs, hcons⟩ := splitOnC_cons_ne c x body hxc
    rw [hcons] at hps
    injection hps with hp0 hps'
    rcases hcase with h | ⟨q, hq, he⟩
    · refine ⟨[x], q0, ?_, Or.inl rfl,
        hmemgood q0 (by rw [hqs]; exact List.mem_cons_self _ _)⟩
      rw [h, ← hp0]
      rfl
    · rw [hsc] at he
      refine ⟨[c], q, he, Or.inr (Or.inr rfl), hmemgood q ?_⟩
      rw [hqs]
      refine List.mem_cons_of_mem _ ?_
      rw [hps']
      exact hq

theorem spPieces_shape (t : List Char) (ht : InvSp t) :
    ∀ p ∈ splitWithSep .sp t, sepPrefixRun p := by
  obtain ⟨pre, body, rfl, hpre, hbody⟩ := ht
  intro p hp
  obtain ⟨pre2, q, hpq, hpre2, hq⟩ :=
    splitWithSep_pieces ' ' .sp (fun u => rfl) rfl
      (fun ch => ch ≠ '\n' ∧ ch ≠ '.') pre body
      (by rcases hpre with h | h | h <;> subst h
          · exact Or.inl rfl
          · exact Or.inr ⟨'\n', rfl, by decide⟩
          · exact Or.inr ⟨'.', rfl, by decide⟩)
      hbody p hp
  refine ⟨pre2, q, hpq, ?_, ?_⟩
  · rcases hpre2 with h | h | h
    · rcases hpre with h' | h' | h' <;> subst h' <;> subst h <;> simp
    · subst h; simp
    · subst h; simp
  · intro ch hch
    obtain ⟨⟨h1, h2⟩, h3⟩ := hq ch hch
    simp [isSepChar, h1, h2, h3]

theorem dotPieces_invSp (t : List Char) (ht : InvDot t) :
    ∀ p ∈ splitWithSep .dot t, InvSp p := by
  obtain ⟨pre, body, rfl, hpre, hbody⟩ := ht
  intro p hp
  obtain ⟨pre2, q, hpq, hpre2, hq⟩ :=
    splitWithSep_pieces '.' .dot (fun u => rfl) rfl
      (fun ch => ch ≠ '\n') pre body
      (by rcases hpre with h | h <;> subst h
          · exact Or.inl rfl
          · exact Or.inr ⟨'\n', rfl, by decide⟩)
      hbody p hp
  refine ⟨pre2, q, hpq, ?_, ?_⟩
  · rcases hpre2 with h | h | h
    · rcases hpre with h' | h' <;> subst h' <;> subst h <;> simp
    · subst h; simp
    · subst h; simp
  · intro ch hch
    exact ⟨(hq ch hch).1, (hq ch hch).2⟩

theorem nlPieces_invDot (t : List Char) :
    ∀ p ∈ splitWithSep .nl t, InvDot p := by
  intro p hp
  obtain ⟨pre2, q, hpq, hpre2, hq⟩ :=
    splitWithSep_pieces '\n' .nl (fun u => rfl) rfl
      (fun _ => True) [] t (Or.inl rfl) (fun _ _ => trivial) p
      (by simpa using hp)
  refine ⟨pre2, q, hpq, ?_, fun ch hch => (hq ch hch).2⟩
  rcases hpre2 with h | h | h
  · subst h; simp
  · subst h; simp
  · subst h; simp

theorem procSplits_bound (size overlap : Nat)
    (recurse : List Char → List (List Char)) (P : List Char → Prop)
    (hP : ∀ c, c.length ≤ size → P c) :
    ∀ splits good : List (List Char),
      (∀ s ∈ splits, ∀ c ∈ recurse s, P c) →
      (∀ s ∈ good, s.length < size) →
      ∀ c ∈ procSplits recurse size overlap splits good, P c := by
  intro splits
  induction splits with
  | nil =>
    intro good _ hgood c hc
    rw [procSplits] at hc
    split at hc
    · cases hc
    · exact hP c (mergeSplits_bound size overlap good hgood c hc)
  | cons s rest ih =>
    intro good hrec hgood c hc
    rw [procSplits] at hc
    split at hc
    · next hlen =>
      refine ih (good ++ [s])
        (fun s' hs' => hrec s' (List.mem_cons_of_mem _ hs')) ?_ c hc
      intro x hx
      rcases List.mem_append.mp hx with h | h
      · exact hgood x h
      · rw [List.mem_singleton] at h
        subst h
        exact hlen
    · rcases List.mem_append.mp hc with hc' | hc'
      · rcases List.mem_append.mp hc' with hc'' | hc''
        · split at hc''
          · cases hc''
          · exact hP c (mergeSplits_bound size overlap good hgood c hc'')
        · exact hrec s (List.mem_cons_self _ _) c hc''
      · exact ih [] (fun s' hs' => hrec s' (List.mem_cons_of_mem _ hs'))
          (by simp) c hc'

theorem splitBySp_bound (size overlap : Nat) (t : List Char) (ht : InvSp t) :
    ∀ c ∈ splitBySp size overlap t, c.length ≤ size ∨ sepPrefixRun c := by
  unfold splitBySp
  refine procSplits_bound size overlap _ _ (fun c h => Or.inl h) _ []
    ?_ (by simp)
  intro s hs c hc
  rw [List.mem_singleton] at hc
  subst hc
  exact Or.inr (spPieces_shape t ht _ hs)

theorem splitByDot_bound (size overlap : Nat) (t : List Char) (ht : InvDot t) :
    ∀ c ∈ splitByDot size overlap t, c.length ≤ size ∨ sepPrefixRun c := by
  unfold splitByDot
  split
  · refine procSplits_bound size overlap _ _ (fun c h => Or.inl h) _ []
      ?_ (by simp)
    intro s hs c hc
    exact splitBySp_bound size overlap s (dotPieces_invSp t ht s hs) c hc
  · next hf =>
    refine splitBySp_bound size overlap t ?_
    have hnd : ∀ ch ∈ t, ch ≠ '.' := by
      intro ch hch
      simp only [sepFound, containsChar, List.any_eq_true, decide_eq_true_eq,
        not_exists, not_and] at hf
      push_neg at hf
      exact hf ch hch
    obtain ⟨pre, body, rfl, hpre, hbody⟩ := ht
    refine ⟨pre, body, rfl, ?_, ?_⟩
    · rcases hpre with h | h
      · exact Or.inl h
      · exact Or.inr (Or.inl h)
    · intro ch hch
      exact ⟨hbody ch hch, hnd ch (List.mem_append_right pre hch)⟩

theorem splitByNl_bound (size overlap : Nat) (t : List Char) :
    ∀ c ∈ splitByNl size overlap t, c.length ≤ size ∨ sepPrefixRun c := by
  unfold splitByNl
  split
  · refine procSplits_bound size overlap _ _ (fun c h => Or.inl h) _ []
      ?_ (by simp)
    intro s hs c hc
    exact splitByDot_bound size overlap s (nlPieces_invDot t s hs) c hc
  · next hf =>
    refine splitByDot_bound size overlap t ?_
    have hnd : ∀ ch ∈ t, ch ≠ '\n' := by
      intro ch hch
      simp only [sepFound, containsChar, List.any_eq_true, decide_eq_true_eq,
        not_exists, not_and] at hf
      push_neg at hf
      exact hf ch hch
    exact ⟨[], t, rfl, Or.inl rfl, hnd⟩

theorem split_text_bound (size overlap : Nat) (t : List Char) :
    ∀ c ∈ split_text size overlap t, c.length ≤ size ∨ sepPrefixRun c := by
  unfold split_text
  split
  · refine procSplits_bound size overlap _ _ (fun c h => Or.inl h) _ []
      ?_ (by simp)
    intro s _ c hc
    exact splitByNl_bound size overlap s c hc
  · exact splitByNl_bound size overlap t

theorem mapM_some_mem {α β : Type} (f : α → Option β) :
    ∀ (xs : List α) (ys : List β), xs.mapM f = some ys →
      ∀ y ∈ ys, ∃ x ∈ xs, f x = some y := by
  intro xs
  induction xs with
  | nil =>
    intro ys h y hy
    simp only [List.mapM_nil, pure, Option.some.injEq] at h
    subst h
    cases hy
  | cons x rest ih =>
    intro ys h y hy
    rw [List.mapM_cons] at h
    cases hfx : f x with
    | none => rw [hfx] at h; cases h
    | some b =>
      rw [hfx] at h
      cases hrest : rest.mapM f with
      | none => rw [hrest] at h; cases h
      | some bs =>
        rw [hrest] at h
        simp only [Option.pure_def, Option.bind_eq_bind, Option.some_bind,
          Option.some.injEq] at h
        subst h
        rcases List.mem_cons.mp hy with h | h
        · subst h
          exact ⟨x, List.mem_cons_self _ _, hfx⟩
        · obtain ⟨x', hx', hfx'⟩ := ih bs hrest y h
          exact ⟨x', List.mem_cons_of_mem _ hx', hfx'⟩

theorem chunkDoc_page_contents (size overlap : Nat) (d : Doc) (l : List Doc)
    (h : chunkDoc size overlap d = some l) :
    l.map Doc.page_content = split_text size overlap d.page_content := by
  unfold chunkDoc at h
  cases hm : metaLookup d.metadata "id" with
  | none => rw [hm] at h; cases h
  | some idv =>
    rw [hm] at h
    injection h with h
    subst h
    rw [List.map_map]
    exact List.enum_map_snd _

/-- C4, counterexample to the literal claim: with `chunk_size = 5` and
`chunk_overlap = 1` (positive, overlap < size), the document `"a bbbbb"`
chunks into `["a", " bbbbb"]`.  The second chunk has length 6 > 5 but is
not a run of non-separator characters: its first character is the
separator `' '` that the splitter re-attached to the piece. -/
theorem c4_counterexample :
    (create_chunks
        [⟨'a' :: ' ' :: ['b','b','b','b','b'], [("id", some (JVal.str ['x']))]⟩]
        5 1).map (List.map Doc.page_content) =
      some [['a'], ' ' :: ['b','b','b','b','b']] ∧
    0 < 1 ∧ 1 < 5 ∧
    5 < (' ' :: ['b','b','b','b','b']).length ∧
    ' ' ∈ ' ' :: ['b','b','b','b','b'] ∧
    isSepChar ' ' = true :=
  ⟨rfl, by decide, by decide, by decide, by decide, rfl⟩

/-- C4, amended: for positive `overlap < size`, every chunk produced by
`create_chunks` either fits the size bound or is an unsplittable run of
non-separator characters possibly preceded by a single re-attached
separator occurrence. -/
theorem c4_chunk_size_bound (docs : List Doc) (size overlap : Nat)
    (chunks : List Doc) (hpos : 0 < overlap) (hov : overlap < size)
    (h : create_chunks docs size overlap = some chunks) :
    ∀ c ∈ chunks,
      (c.page_content).length ≤ size ∨ sepPrefixRun c.page_content := by
  intro c hc
  unfold create_chunks at h
  obtain ⟨ls, hls, hfl⟩ := Option.map_eq_some'.mp h
  subst hfl
  obtain ⟨l, hl, hcl⟩ := List.mem_flatten.mp hc
  obtain ⟨d, _, hfd⟩ := mapM_some_mem _ docs ls hls l hl
  have hmap := chunkDoc_page_contents size overlap d l hfd
  have hmem : c.page_content ∈ split_text size overlap d.page_content := by
    rw [← hmap]
    exact List.mem_map_of_mem _ hcl
  exact split_text_bound size overlap d.page_content _ hmem

/-- Witness for C4 at the counterexample document: the oversized chunk
`" bbbbb"` satisfies the amended shape. -/
theorem c4_chunk_size_bound_witness :
    0 < 1 ∧ 1 < 5 ∧
    ((' ' :: ['b','b','b','b','b']).length ≤ 5 ∨
      sepPrefixRun (' ' :: ['b','b','b','b','b'])) :=
  ⟨by decide, by decide,
    c4_chunk_size_bound
      [⟨'a' :: ' ' :: ['b','b','b','b','b'], [("id", some (JVal.str ['x']))]⟩]
      5 1
      [⟨['a'], [("id", some (JVal.str ['x'])),
                ("chunk_id", some (JVal.str ['x','_','0']))]⟩,
       ⟨' ' :: ['b','b','b','b','b'],
         [("id", some (JVal.str ['x'])),
          ("chunk_id", some (JVal.str ['x','_','1']))]⟩]
      (by decide) (by decide) rfl
      ⟨' ' :: ['b','b','b','b','b'],
        [("id", some (JVal.str ['x'])),
         ("chunk_id", some (JVal.str ['x','_','1']))]⟩
      (List.mem_cons_of_mem _ (List.mem_cons_self _ _))⟩

/-! ### Every document yields at least one chunk -/

theorem mem_dropWhile {α : Type} (p : α → Bool) :
    ∀ (s : List α) (ch : α), ch ∈ s → p ch = false → ch ∈ s.dropWhile p := by
  intro s
  induction s with
  | nil => intro ch h; cases h
  | cons x rest ih =>
    intro ch hch hp
    rw [List.dropWhile]
    cases hx : p x with
    | true =>
      rcases List.mem_cons.mp hch with h | h
      · subst h; rw [hp] at hx; cases hx
      · simpa using ih ch h hp
    | false => simpa using hch

theorem stripChars_ne_nil (s : List Char) (ch : Char)
    (h : ch ∈ s) (hws : isPyWS ch = false) : stripChars s ≠ [] := by
  have h1 := mem_dropWhile isPyWS s ch h hws
  have h2 : ch ∈ (s.dropWhile isPyWS).reverse := List.mem_reverse.mpr h1
  have h3 := mem_dropWhile isPyWS _ ch h2 hws
  intro hc
  rw [stripChars, List.reverse_eq_nil_iff] at hc
  exact List.ne_nil_of_mem h3 hc

theorem joinDocs_ne (current : List (List Char)) (ch : Char)
    (h : ∃ d ∈ current, ch ∈ d) (hws : isPyWS ch = false) :
    ∃ t, joinDocs current = some t := by
  obtain ⟨d, hd, hchd⟩ := h
  have hmem : ch ∈ current.flatten := List.mem_flatten.mpr ⟨d, hd, hchd⟩
  rw [joinDocs]
  cases hs : stripChars current.flatten with
  | nil => exact absurd hs (stripChars_ne_nil _ ch hmem hws)
  | cons x xs => exact ⟨x :: xs, rfl⟩

theorem mergeLoop_ne (size overlap : Nat) (ch : Char)
    (hws : isPyWS ch = false) :
    ∀ (ds current : List (List Char)) (total : Nat),
      ((∃ d ∈ ds, ch ∈ d) ∨ (∃ d ∈ current, ch ∈ d)) →
      mergeLoop size overlap ds current total ≠ [] := by
  intro ds
  induction ds with
  | nil =>
    intro current total h
    rcases h with ⟨d, hd, _⟩ | h
    · cases hd
    · obtain ⟨t, ht⟩ := joinDocs_ne current ch h hws
      rw [mergeLoop_nil, ht]
      simp
  | cons d ds ih =>
    intro current total h
    rw [mergeLoop_cons]
    split
    · cases hcur : current with
      | nil =>
        subst hcur
        dsimp only []
        refine ih [d] (total + d.length) ?_
        rcases h with ⟨e, he, hche⟩ | ⟨e, he, hche⟩
        · rcases List.mem_cons.mp he with h' | h'
          · exact Or.inr ⟨d, List.mem_singleton.mpr rfl, h' ▸ hche⟩
          · exact Or.inl ⟨e, h', hche⟩
        · cases he
      | cons c0 cs =>
        subst hcur
        dsimp only []
        rcases h with ⟨e, he, hche⟩ | ⟨e, he, hche⟩
        · rcases List.mem_cons.mp he with h' | h'
          · have htail := ih
              ((popWhile size overlap d.length (c0 :: cs) total).1 ++ [d])
              ((popWhile size overlap d.length (c0 :: cs) total).2 + d.length)
              (Or.inr ⟨d, List.mem_append_right _ (List.mem_singleton.mpr rfl),
                h' ▸ hche⟩)
            intro hc
            rw [List.append_eq_nil] at hc
            exact htail hc.2
          · have htail := ih
              ((popWhile size overlap d.length (c0 :: cs) total).1 ++ [d])
              ((popWhile size overlap d.length (c0 :: cs) total).2 + d.length)
              (Or.inl ⟨e, h', hche⟩)
            intro hc
            rw [List.append_eq_nil] at hc
            exact htail hc.2
        · obtain ⟨t, ht⟩ := joinDocs_ne (c0 :: cs) ch ⟨e, he, hche⟩ hws
          rw [ht]
          simp
    · refine ih (current ++ [d]) (total + d.length) ?_
      rcases h with ⟨e, he, hche⟩ | ⟨e, he, hche⟩
      · rcases List.mem_cons.mp he with h' | h'
        · subst h'
          exact Or.inr ⟨e, List.mem_append_right _ (List.mem_singleton.mpr rfl),
            hche⟩
        · exact Or.inl ⟨e, h', hche⟩
      · exact Or.inr ⟨e, List.mem_append_left _ he, hche⟩

theorem mergeSplits_ne (size overlap : Nat) (splits : List (List Char))
    (ch : Char) (hws : isPyWS ch = false) (h : ∃ s ∈ splits, ch ∈ s) :
    mergeSplits size overlap splits ≠ [] :=
  mergeLoop_ne size overlap ch hws splits [] 0 (Or.inl h)

theorem mem_splitWithSep_of_mem (k : SepKind) (t : List Char) (ch : Char)
    (hch : ch ∈ t) (hnl : ch ≠ '\n') (hdot : ch ≠ '.') (hsp : ch ≠ ' ') :
    ∃ p ∈ splitWithSep k t, ch ∈ p := by
  have hex : ∃ p ∈ sepSplit k t, ch ∈ p := by
    cases k with
    | nn => exact splitOnNN_mem_of_mem t ch hch hnl
    | nl => exact splitOnC_mem_of_mem '\n' t ch hch hnl
    | dot => exact splitOnC_mem_of_mem '.' t ch hch hdot
    | sp => exact splitOnC_mem_of_mem ' ' t ch hch hsp
  obtain ⟨p, hp, hchp⟩ := hex
  obtain ⟨p0, ps, hps⟩ := List.exists_cons_of_ne_nil (sepSplit_ne_nil k t)
  rw [hps] at hp
  unfold splitWithSep
  rw [hps]
  rcases List.mem_cons.mp hp with h | h
  · refine ⟨p, List.mem_filter.mpr ⟨?_, ?_⟩, hchp⟩
    · rw [h]
      exact List.mem_cons_self _ _
    · simpa using List.ne_nil_of_mem hchp
  · refine ⟨sepChars k ++ p, List.mem_filter.mpr ⟨?_, ?_⟩, ?_⟩
    · exact List.mem_cons_of_mem _ (List.mem_map_of_mem _ h)
    · have h2 : ¬sepChars k = [] ∨ ¬p = [] := Or.inr (List.ne_nil_of_mem hchp)
      simpa using h2
    · exact List.mem_append_right _ hchp

theorem procSplits_ne (size overlap : Nat)
    (recurse : List Char → List (List Char)) (ch : Char)
    (hws : isPyWS ch = false)
    (hrec : ∀ s, ch ∈ s → recurse s ≠ []) :
    ∀ splits good : List (List Char),
      ((∃ s ∈ splits, ch ∈ s) ∨ (∃ s ∈ good, ch ∈ s)) →
      procSplits recurse size overlap splits good ≠ [] := by
  intro splits
  induction splits with
  | nil =>
    intro good h
    rcases h with ⟨s, hs, _⟩ | h
    · cases hs
    · rw [procSplits]
      obtain ⟨s, hs, hchs⟩ := h
      rw [if_neg (by simp [List.isEmpty_iff]; exact List.ne_nil_of_mem hs)]
      exact mergeSplits_ne size overlap good ch hws ⟨s, hs, hchs⟩
  | cons s rest ih =>
    intro good h
    rw [procSplits]
    split
    · refine ih (good ++ [s]) ?_
      rcases h with ⟨e, he, hche⟩ | ⟨e, he, hche⟩
      · rcases List.mem_cons.mp he with h' | h'
        · exact Or.inr ⟨s, List.mem_append_right _ (List.mem_singleton.mpr rfl),
            h' ▸ hche⟩
        · exact Or.inl ⟨e, h', hche⟩
      · exact Or.inr ⟨e, List.mem_append_left _ he, hche⟩
    · intro hc
      rw [List.append_eq_nil, List.append_eq_nil] at hc
      rcases h with ⟨e, he, hche⟩ | ⟨e, he, hche⟩
      · rcases List.mem_cons.mp he with h' | h'
        · exact hrec s (h' ▸ hche) hc.1.2
        · exact ih [] (Or.inl ⟨e, h', hche⟩) hc.2
      · have hne : good ≠ [] := List.ne_nil_of_mem he
        have : (if good.isEmpty then ([] : List (List Char))
            else mergeSplits size overlap good) = [] := hc.1.1
        rw [if_neg (by simpa [List.isEmpty_iff] using hne)] at this
        exact mergeSplits_ne size overlap good ch hws ⟨e, he, hche⟩ this

theorem splitBySp_ne (size overlap : Nat) (t : List Char) (ch : Char)
    (hws : isPyWS ch = false) (hdot : ch ≠ '.') (hch : ch ∈ t) :
    splitBySp size overlap t ≠ [] := by
  have hnl : ch ≠ '\n' := by rintro rfl; simp [isPyWS] at hws
  have hsp : ch ≠ ' ' := by rintro rfl; simp [isPyWS] at hws
  unfold splitBySp
  exact procSplits_ne size overlap _ ch hws (fun s hs => by simp)
    (splitWithSep .sp t) []
    (Or.inl (mem_splitWithSep_of_mem .sp t ch hch hnl hdot hsp))

theorem splitByDot_ne (size overlap : Nat) (t : List Char) (ch : Char)
    (hws : isPyWS ch = false) (hdot : ch ≠ '.') (hch : ch ∈ t) :
    splitByDot size overlap t ≠ [] := by
  have hnl : ch ≠ '\n' := by rintro rfl; simp [isPyWS] at hws
  have hsp : ch ≠ ' ' := by rintro rfl; simp [isPyWS] at hws
  unfold splitByDot
  split
  · exact procSplits_ne size overlap _ ch hws
      (fun s hs => splitBySp_ne size overlap s ch hws hdot hs)
      (splitWithSep .dot t) []
      (Or.inl (mem_splitWithSep_of_mem .dot t ch hch hnl hdot hsp))
  · exact splitBySp_ne size overlap t ch hws hdot hch

theorem splitByNl_ne (size overlap : Nat) (t : List Char) (ch : Char)
    (hws : isPyWS ch = false) (hdot : ch ≠ '.') (hch : ch ∈ t) :
    splitByNl size overlap t ≠ [] := by
  have hnl : ch ≠ '\n' := by rintro rfl; simp [isPyWS] at hws
  have hsp : ch ≠ ' ' := by rintro rfl; simp [isPyWS] at hws
  unfold splitByNl
  split
  · exact procSplits_ne size overlap _ ch hws
      (fun s hs => splitByDot_ne size overlap s ch hws hdot hs)
      (splitWithSep .nl t) []
      (Or.inl (mem_splitWithSep_of_mem .nl t ch hch hnl hdot hsp))
  · exact splitByDot_ne size overlap t ch hws hdot hch

theorem split_text_ne (size overlap : Nat) (t : List Char) (ch : Char)
    (hws : isPyWS ch = false) (hdot : ch ≠ '.') (hch : ch ∈ t) :
    split_text size overlap t ≠ [] := by
  have hnl : ch ≠ '\n' := by rintro rfl; simp [isPyWS] at hws
  have hsp : ch ≠ ' ' := by rintro rfl; simp [isPyWS] at hws
  unfold split_text
  split
  · exact procSplits_ne size overlap _ ch hws
      (fun s hs => splitByNl_ne size overlap s ch hws hdot hs)
      (splitWithSep .nn t) []
      (Or.inl (mem_splitWithSep_of_mem .nn t ch hch hnl hdot hsp))
  · exact splitByNl_ne size overlap t ch hws hdot hch

theorem intercalate_cons_head {α : Type} (sep x : List α) (xs : List (List α)) :
    ∃ rest, List.intercalate sep (x :: xs) = x ++ rest := by
  cases xs with
  | nil => exact ⟨[], by simp [List.intercalate]⟩
  | cons y ys =>
    exact ⟨sep ++ List.intercalate sep (y :: ys), by simp [List.intercalate]⟩

theorem recordSections_cons (r : RecipeRecord) :
    ∃ tail, recordSections r = ("Dish: ".toList ++ r.dish_name) :: tail :=
  ⟨_, rfl⟩

theorem format_record_content_D (r : RecipeRecord) :
    'D' ∈ (format_record r).page_content := by
  show 'D' ∈ List.intercalate "\n\n".toList (recordSections r)
  obtain ⟨tail, htail⟩ := recordSections_cons r
  obtain ⟨rest, hrest⟩ :=
    intercalate_cons_head "\n\n".toList ("Dish: ".toList ++ r.dish_name) tail
  rw [htail, hrest]
  exact List.mem_append_left _ (List.mem_append_left _ (by decide))

theorem chunkDoc_some (size overlap : Nat) (d : Doc) (idv : MVal)
    (hid : metaLookup d.metadata "id" = some idv) :
    chunkDoc size overlap d =
      some (((split_text size overlap d.page_content).enum).map
        (fun p => ⟨p.2, insertMeta d.metadata "chunk_id"
          (some (.str (mvalStr idv ++ '_' :: natDigits p.1)))⟩)) := by
  unfold chunkDoc
  rw [hid]

theorem chunkDoc_format_record_ne (size overlap : Nat) (r : RecipeRecord) :
    ∃ l, chunkDoc size overlap (format_record r) = some l ∧ l ≠ [] := by
  have hid : metaLookup (format_record r).metadata "id" =
      some (some (.str (replaceSpaceUnderscore r.dish_name ++ '_' :: r.origin))) :=
    rfl
  refine ⟨_, chunkDoc_some size overlap (format_record r) _ hid, ?_⟩
  have hsplit : split_text size overlap (format_record r).page_content ≠ [] :=
    split_text_ne size overlap _ 'D' (by decide) (by decide)
      (format_record_content_D r)
  intro hc
  rw [List.map_eq_nil_iff, List.enum_eq_nil] at hc
  exact hsplit hc

theorem mapM_chunkDoc_ge (size overlap : Nat) :
    ∀ docs : List Doc,
      (∀ d ∈ docs, ∃ l, chunkDoc size overlap d = some l ∧ l ≠ []) →
      ∃ ls, docs.mapM (chunkDoc size overlap) = some ls ∧
        docs.length ≤ ls.flatten.length := by
  intro docs
  induction docs with
  | nil => exact fun _ => ⟨[], rfl, by simp⟩
  | cons d ds ih =>
    intro h
    obtain ⟨l, hl, hlne⟩ := h d (List.mem_cons_self _ _)
    obtain ⟨ls, hls, hge⟩ := ih (fun d' hd' => h d' (List.mem_cons_of_mem _ hd'))
    refine ⟨l :: ls, ?_, ?_⟩
    · rw [List.mapM_cons, hl, hls]
      rfl
    · have hpos : 0 < l.length := List.length_pos.mpr hlne
      rw [List.flatten_cons, List.length_append]
      simp only [List.length_cons]
      omega

/-- C9: chunking the loader's documents always succeeds and yields at least
one chunk per document (their content is never empty: it starts with
`"Dish: "`), so the number of chunks is at least the number of documents. -/
theorem c9_chunks_ge_docs (records : List RecipeRecord) (size overlap : Nat) :
    ∃ chunks, create_chunks (format_data records) size overlap = some chunks ∧
      (format_data records).length ≤ chunks.length := by
  obtain ⟨ls, hls, hge⟩ := mapM_chunkDoc_ge size overlap (format_data records)
    (by
      intro d hd
      obtain ⟨r, _, hr⟩ := List.mem_map.mp hd
      exact hr ▸ chunkDoc_format_record_ne size overlap r)
  refine ⟨ls.flatten, ?_, hge⟩
  rw [create_chunks, hls]
  rfl

/-! ### Chunk metadata (C5) -/

theorem insertMeta_of_absent (m : Meta) (k : String) (v : MVal)
    (h : metaLookup m k = none) : insertMeta m k v = m ++ [(k, v)] := by
  unfold insertMeta
  rw [if_neg ?_]
  unfold metaLookup at h
  rw [Option.map_eq_none'] at h
  have hnone := List.find?_eq_none.mp h
  simp only [List.any_eq_true, decide_eq_true_eq, not_exists, not_and]
  intro kv hkv
  simpa using hnone kv hkv

/-- C5: when the parent document has an `id` and no pre-existing
`chunk_id` key (true of every loader document), `create_chunks` produces
from it one chunk per split piece, in order; each chunk's content is the
piece and its metadata is exactly the parent's metadata with the single
appended key `chunk_id = "{parent_id}_{index}"`, `index` being the
chunk's position in the split of that document. -/
theorem c5_chunk_metadata (size overlap : Nat) (d : Doc) (idv : MVal)
    (chunks : List Doc)
    (hid : metaLookup d.metadata "id" = some idv)
    (hfresh : metaLookup d.metadata "chunk_id" = none)
    (h : chunkDoc size overlap d = some chunks) :
    chunks.length = (split_text size overlap d.page_content).length ∧
    chunks = (split_text size overlap d.page_content).enum.map
      (fun p => ⟨p.2, d.metadata ++
        [("chunk_id", some (.str (mvalStr idv ++ '_' :: natDigits p.1)))]⟩) := by
  rw [chunkDoc_some size overlap d idv hid, Option.some.injEq] at h
  subst h
  refine ⟨by simp, ?_⟩
  refine List.map_congr_left ?_
  intro p _
  rw [insertMeta_of_absent d.metadata "chunk_id" _ hfresh]

/-- Witness for C5 at the document `"a bbbbb"` with id `"x"`, chunk size 5,
overlap 1: the two chunks carry `chunk_id = "x_0"` and `"x_1"` appended to
the parent metadata. -/
theorem c5_chunk_metadata_witness :
    ([⟨['a'], [("id", some (JVal.str ['x'])),
               ("chunk_id", some (JVal.str ['x','_','0']))]⟩,
      ⟨' ' :: ['b','b','b','b','b'],
        [("id", some (JVal.str ['x'])),
         ("chunk_id", some (JVal.str ['x','_','1']))]⟩] : List Doc).length =
      (split_text 5 1 ('a' :: ' ' :: ['b','b','b','b','b'])).length ∧
    ([⟨['a'], [("id", some (JVal.str ['x'])),
               ("chunk_id", some (JVal.str ['x','_','0']))]⟩,
      ⟨' ' :: ['b','b','b','b','b'],
        [("id", some (JVal.str ['x'])),
         ("chunk_id", some (JVal.str ['x','_','1']))]⟩] : List Doc) =
      (split_text 5 1 ('a' :: ' ' :: ['b','b','b','b','b'])).enum.map
        (fun p => ⟨p.2, [("id", some (JVal.str ['x']))] ++
          [("chunk_id", some (.str (mvalStr (some (JVal.str ['x'])) ++
            '_' :: natDigits p.1)))]⟩) :=
  c5_chunk_metadata 5 1
    ⟨'a' :: ' ' :: ['b','b','b','b','b'], [("id", some (JVal.str ['x']))]⟩
    (some (JVal.str ['x']))
    [⟨['a'], [("id", some (JVal.str ['x'])),
              ("chunk_id", some (JVal.str ['x','_','0']))]⟩,
     ⟨' ' :: ['b','b','b','b','b'],
       [("id", some (JVal.str ['x'])),
        ("chunk_id", some (JVal.str ['x','_','1']))]⟩]
    rfl rfl rfl

/-! ## The indexer (`pipeline/indexing.py`) and its call site (`app.py`) -/

/-- The fixed persistence path hard-coded at module level in
`indexing.py`. -/
def VECTOR_STORE_DIR : List Char := "../vectors/chroma_db".toList

/-- The parameter list of `def build_vector_store(documents)`. -/
def buildVectorStoreParams : List String := ["documents"]

/-- The keyword-argument names of the call
`build_vector_store(documents=chunks, vector_store_path="vectors/faiss_index")`
at `app.py` line 46 (inside `initialize_pipeline`). -/
def appIndexerCallKwargs : List String := ["documents", "vector_store_path"]

/-- Python keyword-call binding: the call raises `TypeError` unless every
keyword names a parameter and every (default-less) parameter is bound. -/
def pyCallKwargsOk (params kwargs : List String) : Bool :=
  kwargs.all (fun k => params.contains k) &&
    params.all (fun p => kwargs.contains p)

/-- The result of `build_vector_store`: a store loaded from disk, or one
built from the documents.  `exists_fs` abstracts `os.path.exists`. -/
inductive VectorStore where
  | loaded (path : List Char)
  | built (docs : List Doc) (path : List Char)

/-- `build_vector_store(documents)`: load from the fixed
`VECTOR_STORE_DIR` if it exists, else build from the documents and persist
there.  The function has no path parameter. -/
def build_vector_store (exists_fs : List Char → Bool) (documents : List Doc) :
    VectorStore :=
  if exists_fs VECTOR_STORE_DIR then .loaded VECTOR_STORE_DIR
  else .built documents VECTOR_STORE_DIR

/-- C2: the indexer does not take a persisted-index path: its only
parameter is `documents`, and the load-or-build choice always uses the
hard-coded `VECTOR_STORE_DIR`.  Consequently the one call site,
`app.py` line 46, which passes `vector_store_path="vectors/faiss_index"`,
fails Python keyword binding and raises `TypeError`. -/
theorem c2_indexer_no_path_parameter :
    ("vector_store_path" ∈ buildVectorStoreParams) = False ∧
    pyCallKwargsOk buildVectorStoreParams appIndexerCallKwargs = false ∧
    ∀ (exists_fs : List Char → Bool) (documents : List Doc),
      (exists_fs VECTOR_STORE_DIR = true ∧
        build_vector_store exists_fs documents = .loaded VECTOR_STORE_DIR) ∨
      (exists_fs VECTOR_STORE_DIR = false ∧
        build_vector_store exists_fs documents =
          .built documents VECTOR_STORE_DIR) := by
  refine ⟨by simp [buildVectorStoreParams], by decide, ?_⟩
  intro exists_fs documents
  cases hfs : exists_fs VECTOR_STORE_DIR with
  | true => exact Or.inl ⟨rfl, by rw [build_vector_store, if_pos hfs]⟩
  | false => exact Or.inr ⟨rfl, by rw [build_vector_store, if_neg (by simp [hfs])]⟩

/-! ## The retriever (`pipeline/retrieval.py`) -/

/-- Stage 1: `vector_store.as_retriever(search_kwargs={"k": fetch_count})` —
the `k` chunks nearest to the query by vector distance (`dist` abstracts
the distance from the fixed query's embedding; ties resolved stably). -/
def similaritySearch {α : Type} (dist : α → Int) (k : Nat) (store : List α) :
    List α :=
  (store.mergeSort (fun a b => decide (dist a ≤ dist b))).take k

/-- Stage 2: `CrossEncoderReranker.compress_documents`: sort the candidates
by cross-encoder score descending (Python's stable `sorted` with
`reverse=True`) and keep the first `top_n`. -/
def rerank {α : Type} (score : α → Int) (top_n : Nat) (docs : List α) :
    List α :=
  (docs.mergeSort (fun a b => decide (score b ≤ score a))).take top_n

/-- `create_retriever(vector_store, fetch_count=6, reranker_top_n=3)`
applied to a query: fetch, then rerank. -/
def create_retriever {α : Type} (dist score : α → Int)
    (fetch_count reranker_top_n : Nat) (store : List α) : List α :=
  rerank score reranker_top_n (similaritySearch dist fetch_count store)

/-- C8: on a non-empty index, retrieval with `K=6, N=3` returns at most 3
chunks, each drawn from the 6 nearest by similarity, ordered by descending
cross-encoder score. -/
theorem c8_retrieval_top3 {α : Type} (dist score : α → Int)
    (store : List α) (hne : store ≠ []) :
    (create_retriever dist score 6 3 store).length ≤ 3 ∧
    (∀ d ∈ create_retriever dist score 6 3 store,
      d ∈ similaritySearch dist 6 store) ∧
    (create_retriever dist score 6 3 store).Pairwise
      (fun a b => score b ≤ score a) := by
  refine ⟨?_, ?_, ?_⟩
  · exact List.length_take_le 3 _
  · intro d hd
    have h1 := List.take_subset 3 _ hd
    rw [List.mem_mergeSort] at h1
    exact h1
  · have hs := @List.sorted_mergeSort α
      (fun a b : α => decide (score b ≤ score a))
      (fun a b c hab hbc => by
        simp only [decide_eq_true_eq] at hab hbc ⊢
        omega)
      (fun a b => by
        simp only [Bool.or_eq_true, decide_eq_true_eq]
        exact Int.le_total _ _)
      (similaritySearch dist 6 store)
    have hp := hs.sublist (List.take_sublist 3 _)
    exact hp.imp (fun h => of_decide_eq_true h)

/-- Witness for C8 on a concrete two-chunk index. -/
theorem c8_retrieval_top3_witness :
    ([10, 20] : List Int) ≠ [] ∧
    (create_retriever (fun x : Int => x) (fun x : Int => x) 6 3
      [10, 20]).length ≤ 3 :=
  ⟨by decide,
   (c8_retrieval_top3 (fun x => x) (fun x => x) [10, 20] (by decide)).1⟩
